import Mathlib

/-!
Verification of the pip-compile-multi core against its specification.

The development shallowly embeds the two source files
(`pipcompilemulti.py` and `pipcompilemulti/environment.py`):

* strings are represented as `List Char` (`Str` below), with Python's
  `str.strip`/`str.rstrip`/`str.ljust` modelled explicitly;
* the `Dependency` regular expression `RE_DEPENDENCY` is modelled as an
  executable backtracking matcher over newline-free lines (all lines fed
  to `Dependency` come from universal-newlines text-mode file iteration,
  stripped either by `concatenated` or by the trailing-`$` convention);
* environment processing (`fix_pin`) is modelled with explicit state
  passing; the fatal conflict is an `Except.error` value carrying the
  diagnostics;
* the recursive reference walk of `recursive_refs` is modelled with an
  explicit fuel parameter standing for the Python recursion budget; fuel
  exhaustion returns `none` in place of the interpreter's RecursionError;
* the external `toposort_flatten` collaborator, and the `Dependency`
  class imported by `pipcompilemulti/environment.py` (whose module is
  not part of the sources), are modelled from the specification text and
  carry a `Modelled from the spec:` doc string.
-/

namespace Pcm

/-- Strings of the embedded program, as lists of characters. -/
abbrev Str := List Char

/-- Python whitespace test (`str.strip` with no argument): space, tab,
newline, carriage return, vertical tab, form feed. -/
def pyIsSpace (c : Char) : Bool :=
  (c == ' ') || (c == '\t') || (c == '\n') || (c == '\r') ||
  (c == '\x0b') || (c == '\x0c')

/-- Python `str.lstrip()`. -/
def pyLStrip (l : Str) : Str := l.dropWhile pyIsSpace

/-- Python `str.rstrip()`. -/
def pyRStrip (l : Str) : Str := (l.reverse.dropWhile pyIsSpace).reverse

/-- Python `str.strip()`. -/
def pyStrip (l : Str) : Str := pyRStrip (pyLStrip l)

/-- Python `str.ljust(n)`: pad on the right with spaces to width `n`. -/
def ljust (n : Nat) (l : Str) : Str := l ++ List.replicate (n - l.length) ' '

/-! ### fnmatch (glob matching used by `Dependency.is_compatible`) -/

/-- Scan for the closing bracket of a glob character class; returns the
class body and the remainder of the pattern. -/
def breakOnRBracket : Str → Option (Str × Str)
  | [] => none
  | c :: rest =>
    if c = ']' then some ([], rest)
    else (breakOnRBracket rest).map (fun pr => (c :: pr.1, pr.2))

/-- Helper for `parseClass`: parse the class body after the optional
negation marker has been consumed. -/
def parseClassBody (neg : Bool) (ps1 : Str) : Option (Bool × Str × Str) :=
  match ps1 with
  | ']' :: t => (breakOnRBracket t).map (fun pr => (neg, ']' :: pr.1, pr.2))
  | _ => (breakOnRBracket ps1).map (fun pr => (neg, pr.1, pr.2))

/-- Parse a glob character class after an opening `[`, following
`fnmatch.translate`: an initial `!` negates, a `]` directly after that is
a literal member, and an unterminated class makes the `[` literal
(signalled here by `none`). Returns (negated, class body, rest). -/
def parseClass (ps : Str) : Option (Bool × Str × Str) :=
  match ps with
  | '!' :: ps1 => parseClassBody true ps1
  | _ => parseClassBody false ps

/-- Tokens of a compiled glob pattern. -/
inductive GlobTok where
  | star : GlobTok
  | qmark : GlobTok
  | lit : Char → GlobTok
  | cls : Bool → Str → GlobTok
deriving DecidableEq

/-- Compile a glob pattern to tokens (the `fnmatch.translate` pass),
with an explicit recursion budget; each step consumes at least one
pattern character, so a budget of the pattern length always suffices. -/
def globTokenizeF : Nat → Str → List GlobTok
  | 0, _ => []
  | fuel + 1, l =>
    match l with
    | [] => []
    | '*' :: r => .star :: globTokenizeF fuel r
    | '?' :: r => .qmark :: globTokenizeF fuel r
    | '[' :: r =>
      match parseClass r with
      | some (n, cs, rest) => .cls n cs :: globTokenizeF fuel rest
      | none => .lit '[' :: globTokenizeF fuel r
    | c :: r => .lit c :: globTokenizeF fuel r

/-- Compile a glob pattern to tokens. -/
def globTokenize (l : Str) : List GlobTok := globTokenizeF l.length l

/-- Membership of a character in a glob class body (regex-class
semantics: `a-b` ranges, other characters literal). -/
def classMatches (body : Str) (c : Char) : Bool :=
  match body with
  | [] => false
  | a :: '-' :: b :: rest => (a ≤ c && c ≤ b) || classMatches rest c
  | a :: rest => (a == c) || classMatches rest c

/-- Match a tokenized glob pattern against a string, with an explicit
recursion budget; each step consumes a token or a character, so a
budget beyond the sum of both lengths always suffices. -/
def globMatchF : Nat → List GlobTok → Str → Bool
  | 0, _, _ => false
  | fuel + 1, ps, s =>
    match ps, s with
    | [], [] => true
    | [], _ :: _ => false
    | .star :: ps2, [] => globMatchF fuel ps2 []
    | .star :: ps2, c :: cs =>
        globMatchF fuel ps2 (c :: cs) || globMatchF fuel (.star :: ps2) cs
    | .qmark :: _, [] => false
    | .qmark :: ps2, _ :: cs => globMatchF fuel ps2 cs
    | .lit _ :: _, [] => false
    | .lit p :: ps2, c :: cs => (p == c) && globMatchF fuel ps2 cs
    | .cls _ _ :: _, [] => false
    | .cls n body :: ps2, c :: cs =>
        ((classMatches body c) != n) && globMatchF fuel ps2 cs

/-- Match a tokenized glob pattern against a string. -/
def globMatchT (ps : List GlobTok) (s : Str) : Bool :=
  globMatchF (ps.length + s.length + 1) ps s

/-- `fnmatch.fnmatch(name, pattern)` on POSIX (where `normcase` is the
identity). -/
def fnmatch (name pattern : Str) : Bool :=
  globMatchT (globTokenize pattern) name

/-! ### Dependency line model (`Dependency` in `pipcompilemulti.py`) -/

/-- A valid parsed dependency line: the three named groups of
`RE_DEPENDENCY` after the constructor's post-processing (`package` kept
raw, `version` and `comment` stripped). -/
structure Dep where
  package : Str
  version : Str
  comment : Str
deriving DecidableEq

/-- All ways to split a line as `package ++ "==" ++ rest`, in order of
increasing package length (i.e. left-to-right occurrences of `==`). -/
def splits2 : Str → List (Str × Str)
  | [] => []
  | [_] => []
  | a :: b :: rest =>
    let tails := (splits2 (b :: rest)).map (fun pr => (a :: pr.1, pr.2))
    if a = '=' ∧ b = '=' then ([], rest) :: tails else tails

/-- Split a run of non-space characters at its last `#`, if any
(the position the backtracking `(?P<version>[^ ]+)` retreats to when a
comment must follow directly). -/
def lastHashSplit : Str → Option (Str × Str)
  | [] => none
  | c :: rest =>
    match lastHashSplit rest with
    | some (p, s) => some (c :: p, s)
    | none => if c = '#' then some ([], c :: rest) else none

/-- Match `(?P<version>[^ ]+) *(?:(?P<comment>#.*))?$` against the text
following `==`, with the greedy/backtracking choices of the Python
engine: the version takes the maximal non-space run; if what follows
(after spaces) is neither end-of-line nor a `#`, the version backtracks
to just before its last internal `#`. Returns raw (version, comment). -/
def vSplit (rest : Str) : Option (Str × Str) :=
  if rest.takeWhile (fun c => c ≠ ' ') = [] then none
  else
    match (rest.dropWhile (fun c => c ≠ ' ')).dropWhile (fun c => c = ' ') with
    | [] => some (rest.takeWhile (fun c => c ≠ ' '), [])
    | '#' :: r2 => some (rest.takeWhile (fun c => c ≠ ' '), '#' :: r2)
    | _ =>
      match lastHashSplit (rest.takeWhile (fun c => c ≠ ' ')) with
      | some (v1, c1) =>
        if v1 = [] then none
        else some (v1, c1 ++ rest.dropWhile (fun c => c ≠ ' '))
      | none => none

/-- Whether a string contains two adjacent equality signs (an
occurrence of the `==` separator). -/
def hasDoubleEq : Str → Bool
  | [] => false
  | [_] => false
  | a :: b :: rest => (a == '=' && b == '=') || hasDoubleEq (b :: rest)

/-- First successful application of `f` along a list (the backtracking
search order of the regex engine). -/
def firstSome (f : α → Option β) : List α → Option β
  | [] => none
  | a :: rest =>
    match f a with
    | some b => some b
    | none => firstSome f rest

/-- Model of `re.match(RE_DEPENDENCY, line)` for newline-free lines:
`(?iu)(?P<package>.+)==(?P<version>[^ ]+) *(?:(?P<comment>#.*))?$`.
The greedy `(?P<package>.+)` makes the engine try `==` split points from
the rightmost; the package group must be non-empty. Returns the raw
captured groups (package, version, comment). -/
def parseDepCore (l : Str) : Option (Str × Str × Str) :=
  firstSome
    (fun pr =>
      if pr.1 = [] then none
      else (vSplit pr.2).map (fun vc => (pr.1, vc.1, vc.2)))
    (splits2 l).reverse

/-- `Dependency.__init__`: on a regex match, keep the package raw and
strip the version and the (possibly missing) comment; `none` models
`valid == False`. -/
def parseDependency (l : Str) : Option Dep :=
  (parseDepCore l).map (fun g => ⟨g.1, pyStrip g.2.1, pyStrip g.2.2⟩)

/-- `Dependency.without_editable`: strip one leading `-e ` marker. -/
def withoutEditable (l : Str) : Str :=
  if ("-e ".toList).isPrefixOf l then l.drop 3 else l

/-- `Dependency.is_compatible`: the lowercased package name matches one
of the configured glob patterns. -/
def isCompatible (patterns : List Str) (package : Str) : Bool :=
  patterns.any (fun pat => fnmatch (package.map Char.toLower) pat)

/-- `Dependency.COMMENT_JUSTIFICATION`. -/
def commentJustification : Nat := 26

/-- `Dependency.serialize`: `~=` for compatible packages, `==`
otherwise; editable marker stripped from the package; the
package-operator-version segment right-padded for comment alignment;
trailing whitespace removed. -/
def serializeDep (patterns : List Str) (d : Dep) : Str :=
  pyRStrip (ljust commentJustification
    (withoutEditable d.package
      ++ (if isCompatible patterns d.package then ['~', '='] else ['=', '='])
      ++ d.version ++ [' ', ' '])
    ++ d.comment)

/-- Index of the first occurrence of `pat` as a sublist (Python
`str.find`). -/
def findSubstr (pat : Str) : Str → Option Nat
  | [] => if pat = [] then some 0 else none
  | c :: rest =>
    if pat.isPrefixOf (c :: rest) then some 0
    else (findSubstr pat rest).map (· + 1)

/-- `Dependency.drop_post`: truncate the version at the first
`.post` occurrence. -/
def dropPost (d : Dep) : Dep :=
  match findSubstr (".post".toList) d.version with
  | some i => { d with version := d.version.take i }
  | none => d

/-! ### Legacy `Environment` (`pipcompilemulti.py`) -/

/-- State of the legacy `Environment` of `pipcompilemulti.py`: the
ignore set, the `allow_post` flag and the accumulated `packages` set. -/
structure LegacyEnv where
  ignore : List Str
  allowPost : Bool
  packages : List Str
deriving DecidableEq

/-- `Environment.PY3_IGNORE`. -/
def py3Ignore : List Str := [("future".toList), ("futures".toList)]

/-- `Environment.__init__` of `pipcompilemulti.py`: start from the
caller-supplied ignore set, and under Python 3 add `PY3_IGNORE`;
packages start empty. -/
def legacyInit (py3 : Bool) (ignoreArg : List Str) (allowPost : Bool) : LegacyEnv :=
  { ignore := ignoreArg ++ (if py3 then py3Ignore else []),
    allowPost := allowPost,
    packages := [] }

/-- `Environment.fix_pin` of `pipcompilemulti.py`: drop ignored
packages, record the package, apply the post-release policy, serialize;
invalid lines pass through stripped. Returns the updated environment and
the output line (`none` when the line is dropped). -/
def legacyFixPin (patterns : List Str) (env : LegacyEnv) (line : Str) :
    LegacyEnv × Option Str :=
  match parseDependency line with
  | some dep =>
    if dep.package ∈ env.ignore then (env, none)
    else
      let env1 := { env with packages := env.packages ++ [dep.package] }
      let dep1 := if ¬env.allowPost ∨ isCompatible patterns dep.package
                  then dropPost dep else dep
      (env1, some (serializeDep patterns dep1))
  | none => (env, some (pyStrip line))

/-! ### Modern `Environment` (`pipcompilemulti/environment.py`) -/

/-- Modelled from the spec: the `Dependency` class that
`pipcompilemulti/environment.py` imports from `pipcompilemulti.dependency`
(a module not among the sources). Per spec section 4.1 its parser
"matches the pattern `<package>==<version> [#comment]`; on match: valid,
captures package, version (whitespace-trimmed), comment (defaults to
empty)", which is the same pattern the in-source legacy `RE_DEPENDENCY`
implements; a `<version>` is a non-empty token, so a match whose
version trims to nothing is not a valid dependency. -/
def parseDependencyM (line : Str) : Option Dep :=
  match parseDependency line with
  | some d => if d.version = [] then none else some d
  | none => none

/-- Modelled from the spec: `Dependency.drop_post` of the modern code
consults the post-release feature for the environment; per spec
section 4.1 the truncation applies "always for packages flagged
internal/compatible; otherwise only when the owning environment is not
in the configured allow-post set". -/
def mDropPost (allowPost : Bool) (patterns : List Str) (d : Dep) : Dep :=
  if isCompatible patterns d.package ∨ ¬allowPost then dropPost d else d

/-- State of the modern `Environment`: the ignore mapping computed by
the deduplicator (package name to recorded version, `none` recorded
version disables conflict detection), the environment's post-release
permission and its accumulated `packages` mapping. -/
structure MEnv where
  ignore : List (Str × Option Str)
  allowPost : Bool
  packages : List (Str × Str)
deriving DecidableEq

/-- The fatal cross-environment version conflict: diagnostics carry the
package and both versions (`logger.error` arguments), and the raise
aborts the run. -/
structure ConflictError where
  package : Str
  version : Str
  ignoredVersion : Str
deriving DecidableEq

/-- Python `dict` lookup on an association list. -/
def lookupAssoc (l : List (Str × α)) (k : Str) : Option α :=
  (l.find? (fun kv => kv.1 = k)).map (·.2)

/-- Python `dict` assignment on an association list. -/
def updateAssoc (l : List (Str × α)) (k : Str) (v : α) : List (Str × α) :=
  if (l.find? (fun kv => kv.1 = k)).isSome
  then l.map (fun kv => if kv.1 = k then (k, v) else kv)
  else l ++ [(k, v)]

/-- `Environment.fix_pin` of `pipcompilemulti/environment.py`: for a
valid dependency whose package an ancestor owns, detect version
conflicts (fatal) or drop the line; otherwise record the package, apply
the post-release policy and serialize; invalid lines pass through
stripped. -/
def fixPinM (patterns : List Str) (env : MEnv) (line : Str) :
    Except ConflictError (MEnv × Option Str) :=
  match parseDependencyM line with
  | some dep =>
    match lookupAssoc env.ignore dep.package with
    | some ignoredVersion =>
      match ignoredVersion with
      | some iv =>
        if dep.version ≠ [] ∧ dep.version ≠ iv then
          .error ⟨dep.package, dep.version, iv⟩
        else .ok (env, none)
      | none => .ok (env, none)
    | none =>
      let env1 := { env with packages := updateAssoc env.packages dep.package dep.version }
      let dep1 := mDropPost env.allowPost patterns dep
      .ok (env1, some (serializeDep patterns dep1))
  | none => .ok (env, some (pyStrip line))

/-- `Environment.fix_lockfile` of `pipcompilemulti/environment.py`
restricted to the line rewriting: run every (already concatenated) line
through `fix_pin` and keep the non-dropped results. -/
def fixLockfileM (patterns : List Str) (env : MEnv) :
    List Str → Except ConflictError (MEnv × List Str)
  | [] => .ok (env, [])
  | line :: rest =>
    match fixPinM patterns env line with
    | .error e => .error e
    | .ok (env1, out) =>
      match fixLockfileM patterns env1 rest with
      | .error e => .error e
      | .ok (env2, outs) =>
        .ok (env2, match out with | some o => o :: outs | none => outs)

/-! ### Header split and replacement -/

/-- Split a file's character content into its lines, each line keeping
its terminating newline (Python text-file iteration; a final line
without a newline is kept as-is). -/
def splitLinesAux (acc : Str) : Str → List Str
  | [] => if acc = [] then [] else [acc.reverse]
  | c :: rest =>
    if c = '\n' then (acc.reverse ++ ['\n']) :: splitLinesAux [] rest
    else splitLinesAux (c :: acc) rest

/-- Lines of a file content, newlines kept. -/
def splitLinesKN (l : Str) : List Str := splitLinesAux [] l

/-- Whether a line belongs to the leading header block (`line.startswith('#')`). -/
def isHeaderLine (l : Str) : Bool := l.head? = some '#'

/-- `Environment.split_header` at the file-content level: the header is
the maximal leading run of `#`-lines; the first non-comment line ends
the header permanently. Returns (header text, body text), the
concatenations the subsequent `writelines` calls produce. -/
def splitHeaderFile (content : Str) : Str × Str :=
  (((splitLinesKN content).takeWhile isHeaderLine).flatten,
   ((splitLinesKN content).dropWhile isHeaderLine).flatten)

/-- `Environment.replace_header`: write the supplied header text
followed by the body of the previous content. -/
def replaceHeader (content header : Str) : Str :=
  header ++ (splitHeaderFile content).2

/-- Well-formedness of a replacement header: every line starts with the
comment marker and is newline-terminated. -/
def headerLinesOK (h : Str) : Bool :=
  (splitLinesKN h).all (fun l => isHeaderLine l && (l.getLast? == some '\n'))

/-- A newline-terminated line with no interior newline. -/
def FullLine (x : Str) : Prop :=
  ∃ core, ('\n') ∉ core ∧ x = core ++ ['\n']

/-- A non-empty final line without a newline. -/
def BareLine (x : Str) : Prop := ('\n') ∉ x ∧ x ≠ []

/-- Shape of a line list produced by splitting file content: every line
but the last is newline-terminated, the last may lack the newline. -/
def ValidLines : List Str → Prop
  | [] => True
  | [x] => FullLine x ∨ BareLine x
  | x :: y :: rest => FullLine x ∧ ValidLines (y :: rest)

/-! ### Hash comments and the verify command -/

/-- The `# SHA1:` tag. -/
def sha1Tag : Str := "# SHA1:".toList

/-- `generate_hash_comment`, with the SHA1 hex digest of the stripped
file content abstracted as the function `hash` (hashlib is an external
collaborator). -/
def generateHashComment (hash : Str → Str) (content : Str) : Str :=
  sha1Tag ++ hash (pyStrip content) ++ ['\n']

/-- `parse_hash_comment`: the first line of the file starting with
`# SHA1:`, or `none`. -/
def parseHashComment (content : Str) : Option Str :=
  (splitLinesKN content).find? (fun l => sha1Tag.isPrefixOf l)

/-- One discovered environment as the `verify` command sees it: its
name and the contents of its input and output files. -/
structure VEnvFile where
  name : Str
  infile : Str
  outfile : Str

/-- The per-environment check of `verify`: the recorded hash comment of
the output file equals the freshly generated one of the input file. -/
def verifyOne (hash : Str → Str) (e : VEnvFile) : Bool :=
  parseHashComment e.outfile == some (generateHashComment hash e.infile)

/-- The `verify` command: check every environment, reporting each
individually, and succeed only if all match (`ctx.exit(1)` otherwise). -/
def verifyAll (hash : Str → Str) (envs : List VEnvFile) :
    List (Str × Bool) × Bool :=
  let results := envs.map (fun e => (e.name, verifyOne hash e))
  (results, results.all (·.2))

/-! ### Environment reference graph -/

/-- One discovered environment configuration: its name and the names of
the environments it references. -/
structure EnvConf where
  name : String
  refs : List String
deriving DecidableEq

/-- `refs_by_name[name]`: Python dict comprehension semantics (a later
entry with the same name overwrites an earlier one); `none` models the
`KeyError` on a missing name. -/
def refsByName (envs : List EnvConf) (n : String) : Option (List String) :=
  (envs.reverse.find? (fun e => e.name = n)).map (·.refs)

/-- One reference step in the environment graph: `b` is a direct
reference of the environment named `a`. -/
def RefStep (envs : List EnvConf) (a b : String) : Prop :=
  ∃ refs, refsByName envs a = some refs ∧ b ∈ refs

/-- `b` is reachable from `a` by one or more reference steps: the
direct-and-transitive reference set. -/
def Reach (envs : List EnvConf) : String → String → Prop :=
  Relation.TransGen (RefStep envs)

/-- Acyclicity of the reference graph. -/
def AcyclicL (envs : List EnvConf) : Prop :=
  ∀ e ∈ envs, ¬ Reach envs e.name e.name

/-- A cycle is reachable from `n`: some node on a proper cycle can be
reached from `n` in zero or more steps. -/
def CycleFrom (envs : List EnvConf) (n : String) : Prop :=
  ∃ c, Relation.ReflTransGen (RefStep envs) n c ∧ Reach envs c c

/-- Every reference points at a discovered environment. -/
def ClosedL (envs : List EnvConf) : Prop :=
  ∀ e ∈ envs, ∀ r ∈ e.refs, (refsByName envs r).isSome

instance (envs : List EnvConf) : Decidable (ClosedL envs) := by
  unfold ClosedL
  infer_instance

/-- `Option`-valued `mapM` with transparent equations. -/
def optMapM (f : α → Option β) : List α → Option (List β)
  | [] => some []
  | a :: l =>
    match f a with
    | none => none
    | some b => (optMapM f l).map (b :: ·)

/-- `recursive_refs(envs, name)` with an explicit recursion budget
`fuel` standing for the Python stack: the set of direct references
united with the recursive reference sets of each of them. Exhausted
fuel (`none`) models the interpreter's recursion-limit error; the
result list carries set semantics through membership. -/
def recursiveRefsF (envs : List EnvConf) : Nat → String → Option (List String)
  | 0, _ => none
  | fuel + 1, name =>
    match refsByName envs name with
    | none => none
    | some refs =>
      match optMapM (recursiveRefsF envs fuel) refs with
      | none => none
      | some indirect => some (refs ++ indirect.flatten)

/-- Modelled from the spec: `toposort_flatten` from the external
`toposort` library, specified as a "Kahn/DFS-based sort over the
name→refs map" which "orders all environments so that every referenced
environment is processed before its dependents" and for which "a cycle
in this graph is a configuration error". Kahn's algorithm, emitting one
ready node at a time; `none` models the cycle error (and, for a
dependency naming no key, the stalled lookup the caller turns into an
error). -/
def toposortFlatten : Nat → List String → List (String × List String) →
    Option (List String)
  | _, _, [] => some []
  | 0, _, _ :: _ => none
  | fuel + 1, emitted, rem =>
    match rem.find? (fun e => e.2.all (fun r => emitted.contains r)) with
    | none => none
    | some e =>
      (toposortFlatten fuel (emitted ++ [e.1])
        (rem.eraseP (fun x => x.1 = e.1))).map (e.1 :: ·)

/-- `by_name[name]` (dict semantics, last entry wins). -/
def findEnvByName (envs : List EnvConf) (n : String) : Option EnvConf :=
  envs.reverse.find? (fun e => e.name = n)

/-- `order_by_refs`: topologically sort the name→refs topology and map
the resulting names back through `by_name`. -/
def orderByRefs (envs : List EnvConf) : Option (List EnvConf) :=
  match toposortFlatten envs.length [] (envs.map (fun e => (e.name, e.refs))) with
  | none => none
  | some names => optMapM (findEnvByName envs) names

/-- Executable acyclicity check used to discharge acyclicity premises on
concrete graphs: for every environment, the reference walk terminates
within `|envs| + 1` levels and does not reach the environment itself. -/
def cycleFreeCheck (envs : List EnvConf) : Bool :=
  envs.all (fun e =>
    match recursiveRefsF envs (envs.length + 1) e.name with
    | some s => !(s.contains e.name)
    | none => false)

/-- The three-environment chain of the specification's examples:
`base ← test ← local`. -/
def chainEnvs : List EnvConf :=
  [⟨"base", []⟩, ⟨"test", ["base"]⟩, ⟨"local", ["test"]⟩]

/-- A two-environment reference cycle. -/
def cycEnvs : List EnvConf := [⟨"a", ["b"]⟩, ⟨"b", ["a"]⟩]

/-! ## Theorems -/

theorem parseDependencyM_version_ne {line : Str} {dep : Dep}
    (h : parseDependencyM line = some dep) : dep.version ≠ [] := by
  unfold parseDependencyM at h
  cases hp : parseDependency line with
  | none => rw [hp] at h; exact absurd h (by simp)
  | some d =>
    rw [hp] at h
    by_cases hv : d.version = []
    · simp [hv] at h
    · simp [hv] at h
      rw [← h]
      exact hv

/-- C1: while rewriting a descendant environment's lockfile, a parsed
dependency line whose package the ignore mapping records with a
non-none version different from the freshly resolved one makes
`fix_pin` raise the fatal conflict, whose diagnostics carry the package
and both versions, and no output line is produced for the package. -/
theorem c1_conflict_fatal (patterns : List Str) (env : MEnv) (line : Str)
    (dep : Dep) (iv : Str)
    (hparse : parseDependencyM line = some dep)
    (hig : lookupAssoc env.ignore dep.package = some (some iv))
    (hne : dep.version ≠ iv) :
    fixPinM patterns env line = .error ⟨dep.package, dep.version, iv⟩ := by
  have hv := parseDependencyM_version_ne hparse
  unfold fixPinM
  rw [hparse]
  dsimp only
  rw [hig]
  simp [hv, hne]

theorem c1_conflict_fatal_witness :
    parseDependencyM ("pkgA==2.0.0".toList)
      = some ⟨("pkgA".toList), ("2.0.0".toList), []⟩ ∧
    lookupAssoc [(("pkgA".toList), some ("1.0.0".toList))] ("pkgA".toList)
      = some (some ("1.0.0".toList)) ∧
    fixPinM [] ⟨[(("pkgA".toList), some ("1.0.0".toList))], true, []⟩
        ("pkgA==2.0.0".toList)
      = .error ⟨("pkgA".toList), ("2.0.0".toList), ("1.0.0".toList)⟩ :=
  ⟨by decide, by decide,
   c1_conflict_fatal [] ⟨[(("pkgA".toList), some ("1.0.0".toList))], true, []⟩
     ("pkgA==2.0.0".toList) ⟨("pkgA".toList), ("2.0.0".toList), []⟩
     ("1.0.0".toList) (by decide) (by decide) (by decide)⟩

/-- C2: a parsed dependency line whose package an ancestor owns with a
matching or absent recorded version is dropped: `fix_pin` returns no
output line for it and leaves the environment (in particular its
`packages` mapping) unchanged. -/
theorem c2_dedup_drops_line (patterns : List Str) (env : MEnv) (line : Str)
    (dep : Dep) (recV : Option Str)
    (hparse : parseDependencyM line = some dep)
    (hig : lookupAssoc env.ignore dep.package = some recV)
    (hmatch : recV = none ∨ recV = some dep.version) :
    fixPinM patterns env line = .ok (env, none) := by
  unfold fixPinM
  rw [hparse]
  dsimp only
  rw [hig]
  rcases hmatch with h | h
  · subst h; rfl
  · subst h; simp

theorem c2_dedup_drops_line_witness :
    parseDependencyM ("pkgA==1.0.0".toList)
      = some ⟨("pkgA".toList), ("1.0.0".toList), []⟩ ∧
    fixPinM [] ⟨[(("pkgA".toList), some ("1.0.0".toList))], true, []⟩
        ("pkgA==1.0.0".toList)
      = .ok (⟨[(("pkgA".toList), some ("1.0.0".toList))], true, []⟩, none) :=
  ⟨by decide,
   c2_dedup_drops_line [] ⟨[(("pkgA".toList), some ("1.0.0".toList))], true, []⟩
     ("pkgA==1.0.0".toList) ⟨("pkgA".toList), ("1.0.0".toList), []⟩
     (some ("1.0.0".toList)) (by decide) (by decide) (Or.inr (by decide))⟩

/-- C8 counterexample: `fix_pin` strips leading whitespace from an
unmatched line as well, so the line ` # note` is not returned with its
leading content unchanged. -/
theorem c8_counterexample :
    parseDependency (" # note".toList) = none ∧
    (legacyFixPin [] (legacyInit true [] false) (" # note".toList)).2
      = some ("# note".toList) ∧
    some ("# note".toList) ≠ some (pyRStrip (" # note".toList)) := by
  refine ⟨by decide, by decide, by decide⟩

/-- C8 (amended): an input line that does not match the dependency
pattern is returned by `fix_pin` trimmed of leading and trailing
whitespace (Python `str.strip`), and the environment's tracked package
set is unchanged; this holds in both the legacy and the modern
environment. -/
theorem c8_invalid_line_stripped (patterns : List Str) (lenv : LegacyEnv)
    (menv : MEnv) (line : Str)
    (hinv : parseDependency line = none) :
    legacyFixPin patterns lenv line = (lenv, some (pyStrip line)) ∧
    fixPinM patterns menv line = .ok (menv, some (pyStrip line)) := by
  have hm : parseDependencyM line = none := by
    unfold parseDependencyM; rw [hinv]
  constructor
  · unfold legacyFixPin; rw [hinv]
  · unfold fixPinM; rw [hm]

theorem c8_invalid_line_stripped_witness :
    parseDependency (" # note".toList) = none ∧
    legacyFixPin [] (legacyInit true [] false) (" # note".toList)
      = (legacyInit true [] false, some (pyStrip (" # note".toList))) :=
  ⟨by decide,
   (c8_invalid_line_stripped [] (legacyInit true [] false)
     ⟨[], true, []⟩ (" # note".toList) (by decide)).1⟩

/-- C10: under Python 3, the legacy environment adds `future` and
`futures` to its ignore set whatever the caller-supplied ignore
argument, so a resolver output line pinning either package is dropped
and never recorded in the environment's package set. -/
theorem c10_py3_future_ignored (ignoreArg : List Str) (allowPost : Bool)
    (patterns : List Str) (line : Str) (dep : Dep)
    (hparse : parseDependency line = some dep)
    (hpkg : dep.package = ("future".toList) ∨ dep.package = ("futures".toList)) :
    (("future".toList) ∈ (legacyInit true ignoreArg allowPost).ignore ∧
     ("futures".toList) ∈ (legacyInit true ignoreArg allowPost).ignore) ∧
    legacyFixPin patterns (legacyInit true ignoreArg allowPost) line
      = (legacyInit true ignoreArg allowPost, none) := by
  have hmem : dep.package ∈ (legacyInit true ignoreArg allowPost).ignore := by
    rcases hpkg with h | h <;> simp [legacyInit, py3Ignore, h]
  refine ⟨⟨?_, ?_⟩, ?_⟩
  · simp [legacyInit, py3Ignore]
  · simp [legacyInit, py3Ignore]
  · unfold legacyFixPin
    rw [hparse]
    simp [hmem]

theorem c10_py3_future_ignored_witness :
    parseDependency ("futures==3.0.5".toList)
      = some ⟨("futures".toList), ("3.0.5".toList), []⟩ ∧
    legacyFixPin [] (legacyInit true [] false) ("futures==3.0.5".toList)
      = (legacyInit true [] false, none) :=
  ⟨by decide,
   (c10_py3_future_ignored [] false [] ("futures==3.0.5".toList)
     ⟨("futures".toList), ("3.0.5".toList), []⟩ (by decide)
     (Or.inr (by decide))).2⟩

/-- C9: the verify command checks and reports every discovered
environment individually (a mismatch does not stop the loop), and it
exits with failure status exactly when at least one environment's
recorded fingerprint differs from the freshly computed fingerprint of
its input file. -/
theorem c9_verify_reports_all (hash : Str → Str) (envs : List VEnvFile) :
    (verifyAll hash envs).1 = envs.map (fun e => (e.name, verifyOne hash e)) ∧
    ((verifyAll hash envs).2 = false ↔
      ∃ e ∈ envs,
        parseHashComment e.outfile ≠ some (generateHashComment hash e.infile)) := by
  refine ⟨rfl, ?_⟩
  have hkey : (verifyAll hash envs).2 = true ↔
      ∀ e ∈ envs,
        parseHashComment e.outfile = some (generateHashComment hash e.infile) := by
    simp [verifyAll, verifyOne, List.all_eq_true]
  constructor
  · intro h
    by_contra hc
    push_neg at hc
    have ht : (verifyAll hash envs).2 = true := hkey.mpr hc
    rw [h] at ht
    exact absurd ht (by simp)
  · rintro ⟨e, he, hne⟩
    cases hb : (verifyAll hash envs).2 with
    | false => rfl
    | true => exact absurd (hkey.mp hb e he) hne

/-! ### Reference graph lemmas -/

theorem optMapM_eq_none {f : α → Option β} {l : List α} {a : α}
    (ha : a ∈ l) (hf : f a = none) : optMapM f l = none := by
  induction l with
  | nil => cases ha
  | cons x xs ih =>
    rcases List.mem_cons.mp ha with h | h
    · subst h; simp [optMapM, hf]
    · unfold optMapM
      cases hfx : f x with
      | none => rfl
      | some b => simp [ih h]

theorem optMapM_forall₂ {f : α → Option β} {l : List α} {ys : List β}
    (h : optMapM f l = some ys) :
    List.Forall₂ (fun a b => f a = some b) l ys := by
  induction l generalizing ys with
  | nil =>
    unfold optMapM at h
    cases h
    exact List.Forall₂.nil
  | cons x xs ih =>
    unfold optMapM at h
    cases hfx : f x with
    | none => rw [hfx] at h; cases h
    | some b =>
      rw [hfx] at h
      cases hrest : optMapM f xs with
      | none => rw [hrest] at h; cases h
      | some zs =>
        rw [hrest] at h
        have hy : b :: zs = ys := Option.some.inj h
        subst hy
        exact List.Forall₂.cons hfx (ih hrest)

theorem optMapM_isSome {f : α → Option β} {l : List α}
    (h : ∀ a ∈ l, (f a).isSome) : ∃ ys, optMapM f l = some ys := by
  induction l with
  | nil => exact ⟨[], rfl⟩
  | cons x xs ih =>
    obtain ⟨b, hb⟩ := Option.isSome_iff_exists.mp (h x (List.mem_cons_self x xs))
    obtain ⟨ys, hys⟩ := ih (fun a ha => h a (List.mem_cons_of_mem _ ha))
    refine ⟨b :: ys, ?_⟩
    unfold optMapM
    rw [hb, hys]
    rfl

theorem forall₂_mem_left {R : α → β → Prop} {l : List α} {ys : List β}
    (h : List.Forall₂ R l ys) {a : α} (ha : a ∈ l) : ∃ b ∈ ys, R a b := by
  induction h with
  | nil => cases ha
  | cons hR _ ih =>
    rcases List.mem_cons.mp ha with h1 | h1
    · subst h1; exact ⟨_, List.mem_cons_self .., hR⟩
    · obtain ⟨b, hb, hRb⟩ := ih h1
      exact ⟨b, List.mem_cons_of_mem _ hb, hRb⟩

theorem forall₂_mem_right {R : α → β → Prop} {l : List α} {ys : List β}
    (h : List.Forall₂ R l ys) {b : β} (hb : b ∈ ys) : ∃ a ∈ l, R a b := by
  induction h with
  | nil => cases hb
  | cons hR _ ih =>
    rcases List.mem_cons.mp hb with h1 | h1
    · subst h1; exact ⟨_, List.mem_cons_self .., hR⟩
    · obtain ⟨a, ha, hRa⟩ := ih h1
      exact ⟨a, List.mem_cons_of_mem _ ha, hRa⟩

theorem refsByName_exists {envs : List EnvConf} {n : String} {refs : List String}
    (h : refsByName envs n = some refs) :
    ∃ e ∈ envs, e.name = n ∧ e.refs = refs := by
  unfold refsByName at h
  cases hf : envs.reverse.find? (fun e => e.name = n) with
  | none => rw [hf] at h; cases h
  | some e =>
    rw [hf] at h
    have hmem := List.mem_of_find?_eq_some hf
    have hp := List.find?_some hf
    have hrefs : e.refs = refs := Option.some.inj h
    refine ⟨e, List.mem_reverse.mp hmem, ?_, hrefs⟩
    simpa using hp

theorem refsByName_isSome_of_mem {envs : List EnvConf} {e : EnvConf}
    (he : e ∈ envs) : (refsByName envs e.name).isSome := by
  unfold refsByName
  cases hf : envs.reverse.find? (fun x => x.name = e.name) with
  | some x => rfl
  | none =>
    have : (envs.reverse.find? (fun x => x.name = e.name)).isSome :=
      List.find?_isSome.mpr ⟨e, List.mem_reverse.mpr he, by simp⟩
    rw [hf] at this
    cases this

theorem refsByName_isSome_exists {envs : List EnvConf} {n : String}
    (h : (refsByName envs n).isSome) : ∃ e ∈ envs, e.name = n := by
  obtain ⟨refs, hr⟩ := Option.isSome_iff_exists.mp h
  obtain ⟨e, he, hn, _⟩ := refsByName_exists hr
  exact ⟨e, he, hn⟩

theorem refsByName_of_nodup {envs : List EnvConf} {e : EnvConf}
    (hnd : (envs.map EnvConf.name).Nodup) (he : e ∈ envs) :
    refsByName envs e.name = some e.refs := by
  obtain ⟨refs, hr⟩ := Option.isSome_iff_exists.mp (refsByName_isSome_of_mem he)
  obtain ⟨e2, he2, hn2, hrefs2⟩ := refsByName_exists hr
  have he2e : e2 = e := List.inj_on_of_nodup_map hnd he2 he hn2
  rw [hr, ← hrefs2, he2e]

theorem cycleFrom_step {envs : List EnvConf} {n : String}
    (h : CycleFrom envs n) :
    ∃ refs, refsByName envs n = some refs ∧ ∃ r ∈ refs, CycleFrom envs r := by
  obtain ⟨c, hnc, hcc⟩ := h
  rcases Relation.ReflTransGen.cases_head_iff.mp hnc with heq | ⟨x, hnx, hxc⟩
  · subst heq
    obtain ⟨x, hnx, hxn⟩ := Relation.TransGen.head'_iff.mp hcc
    obtain ⟨refs, hrefs, hxr⟩ := hnx
    exact ⟨refs, hrefs, x, hxr, ⟨n, hxn, hcc⟩⟩
  · obtain ⟨refs, hrefs, hxr⟩ := hnx
    exact ⟨refs, hrefs, x, hxr, ⟨c, hxc, hcc⟩⟩

/-- C5: when a cycle of the reference graph is reachable from the
queried name, `recursive_refs` never returns a value: for every
recursion budget the walk exhausts it and fails with an error instead
of running forever. -/
theorem c5_cycle_fails (envs : List EnvConf) (name : String)
    (h : CycleFrom envs name) :
    ∀ fuel, recursiveRefsF envs fuel name = none := by
  have H : ∀ fuel n, CycleFrom envs n → recursiveRefsF envs fuel n = none := by
    intro fuel
    induction fuel with
    | zero => intro n _; rfl
    | succ f ih =>
      intro n hn
      obtain ⟨refs, hrefs, r, hr, hcyc⟩ := cycleFrom_step hn
      unfold recursiveRefsF
      rw [hrefs]
      dsimp only
      rw [optMapM_eq_none hr (ih r hcyc)]
  exact fun fuel => H fuel name h

theorem c5_cycle_fails_witness :
    CycleFrom cycEnvs "a" ∧ recursiveRefsF cycEnvs 5 "a" = none := by
  have hab : RefStep cycEnvs "a" "b" := ⟨["b"], by decide, by decide⟩
  have hba : RefStep cycEnvs "b" "a" := ⟨["a"], by decide, by decide⟩
  have hcyc : CycleFrom cycEnvs "a" :=
    ⟨"a", Relation.ReflTransGen.refl,
     Relation.TransGen.head hab (Relation.TransGen.single hba)⟩
  exact ⟨hcyc, c5_cycle_fails cycEnvs "a" hcyc 5⟩

theorem recRefsF_complete {envs : List EnvConf} :
    ∀ {fuel : Nat} {n : String} {S : List String},
      recursiveRefsF envs fuel n = some S →
      ∀ m, Reach envs n m → m ∈ S := by
  intro fuel
  induction fuel with
  | zero => intro n S h; cases h
  | succ f ih =>
    intro n S h m hreach
    unfold recursiveRefsF at h
    cases hrefs : refsByName envs n with
    | none => rw [hrefs] at h; cases h
    | some refs =>
      rw [hrefs] at h
      dsimp only at h
      cases hmap : optMapM (recursiveRefsF envs f) refs with
      | none => rw [hmap] at h; cases h
      | some parts =>
        rw [hmap] at h
        have hS : refs ++ parts.flatten = S := Option.some.inj h
        subst hS
        obtain ⟨x, hstep, hxm⟩ := Relation.TransGen.head'_iff.mp hreach
        obtain ⟨refs2, hrefs2, hxr⟩ := hstep
        rw [hrefs] at hrefs2
        have hre : refs = refs2 := Option.some.inj hrefs2
        rw [← hre] at hxr
        rcases Relation.reflTransGen_iff_eq_or_transGen.mp hxm with heq | htg
        · subst heq
          exact List.mem_append_left _ hxr
        · obtain ⟨Sx, hSx, hfx⟩ := forall₂_mem_left (optMapM_forall₂ hmap) hxr
          exact List.mem_append_right _
            (List.mem_flatten.mpr ⟨Sx, hSx, ih hfx m htg⟩)

theorem acyclic_of_cycleFreeCheck {envs : List EnvConf}
    (h : cycleFreeCheck envs = true) : AcyclicL envs := by
  intro e he hreach
  have hall := List.all_eq_true.mp h e he
  cases hrec : recursiveRefsF envs (envs.length + 1) e.name with
  | none => rw [hrec] at hall; cases hall
  | some s =>
    rw [hrec] at hall
    have hmem : e.name ∈ s := recRefsF_complete hrec e.name hreach
    have hnot : e.name ∉ s := by simpa using hall
    exact hnot hmem

/-- C4: for an acyclic, closed reference graph, `recursive_refs`
terminates once its recursion budget covers the environment count, and
its result holds exactly the environment names reachable from `name` by
one or more reference steps -- the direct and transitive references,
which exclude `name` itself by acyclicity. -/
theorem c4_recursive_refs_exact (envs : List EnvConf) (name : String)
    (fuel : Nat)
    (hname : (refsByName envs name).isSome)
    (hclosed : ClosedL envs)
    (hacyc : AcyclicL envs)
    (hfuel : envs.length + 1 ≤ fuel) :
    ∃ S, recursiveRefsF envs fuel name = some S ∧
      ∀ m, m ∈ S ↔ Reach envs name m := by
  have key : ∀ (fuel2 : Nat) (path : List String) (n : String),
      (refsByName envs n).isSome →
      (∀ v ∈ path, Reach envs v n) →
      path.Nodup →
      (∀ v ∈ path, v ∈ envs.map EnvConf.name) →
      envs.length + 1 ≤ fuel2 + path.length →
      ∃ S, recursiveRefsF envs fuel2 n = some S ∧
        ∀ m, m ∈ S ↔ Reach envs n m := by
    intro fuel2
    induction fuel2 with
    | zero =>
      intro path n _ _ hnd hmem hf
      have hsub : path ⊆ envs.map EnvConf.name := hmem
      have hlen : path.length ≤ (envs.map EnvConf.name).length :=
        (hnd.subperm hsub).length_le
      rw [List.length_map] at hlen
      omega
    | succ f2 ih =>
      intro path n hsome hpath hnd hmem hf
      obtain ⟨refs, hrefs⟩ := Option.isSome_iff_exists.mp hsome
      have hstep : ∀ r ∈ refs, RefStep envs n r := fun r hr => ⟨refs, hrefs, hr⟩
      have hrsome : ∀ r ∈ refs, (refsByName envs r).isSome := by
        obtain ⟨e, he, hen, herefs⟩ := refsByName_exists hrefs
        intro r hr
        exact hclosed e he r (by rw [herefs]; exact hr)
      have hnN : n ∈ envs.map EnvConf.name := by
        obtain ⟨e, he, hen⟩ := refsByName_isSome_exists hsome
        exact List.mem_map.mpr ⟨e, he, hen⟩
      have hnpath : n ∉ path := by
        intro hcontra
        obtain ⟨e, he, hen⟩ := refsByName_isSome_exists hsome
        exact hacyc e he (by rw [hen]; exact hpath n hcontra)
      have hrec : ∀ r ∈ refs, ∃ Sr, recursiveRefsF envs f2 r = some Sr ∧
          ∀ m, m ∈ Sr ↔ Reach envs r m := by
        intro r hr
        refine ih (n :: path) r (hrsome r hr) ?_ ?_ ?_ ?_
        · intro v hv
          rcases List.mem_cons.mp hv with hv | hv
          · subst hv; exact Relation.TransGen.single (hstep r hr)
          · exact Relation.TransGen.tail (hpath v hv) (hstep r hr)
        · exact List.Nodup.cons hnpath hnd
        · intro v hv
          rcases List.mem_cons.mp hv with hv | hv
          · subst hv; exact hnN
          · exact hmem v hv
        · simp only [List.length_cons]
          omega
      have hrecsome : ∀ r ∈ refs, (recursiveRefsF envs f2 r).isSome := by
        intro r hr
        obtain ⟨Sr, hSr, _⟩ := hrec r hr
        rw [hSr]
        rfl
      obtain ⟨parts, hparts⟩ := optMapM_isSome hrecsome
      refine ⟨refs ++ parts.flatten, ?_, ?_⟩
      · unfold recursiveRefsF
        rw [hrefs]
        dsimp only
        rw [hparts]
      · intro m
        constructor
        · intro hm
          rcases List.mem_append.mp hm with hm | hm
          · exact Relation.TransGen.single (hstep m hm)
          · obtain ⟨Sx, hSx, hmx⟩ := List.mem_flatten.mp hm
            obtain ⟨r, hr, hfr⟩ := forall₂_mem_right (optMapM_forall₂ hparts) hSx
            obtain ⟨Sr, hSr, hiff⟩ := hrec r hr
            rw [hSr] at hfr
            have hSe : Sr = Sx := Option.some.inj hfr
            exact Relation.TransGen.head (hstep r hr)
              ((hiff m).mp (by rw [hSe]; exact hmx))
        · intro hreach
          obtain ⟨x, hx, hxm⟩ := Relation.TransGen.head'_iff.mp hreach
          obtain ⟨refs2, hrefs2, hxr⟩ := hx
          rw [hrefs] at hrefs2
          have hre : refs = refs2 := Option.some.inj hrefs2
          rw [← hre] at hxr
          rcases Relation.reflTransGen_iff_eq_or_transGen.mp hxm with heq | htg
          · subst heq
            exact List.mem_append_left _ hxr
          · obtain ⟨Sr, hSr, hiff⟩ := hrec x hxr
            obtain ⟨Sx, hSx, hfx⟩ := forall₂_mem_left (optMapM_forall₂ hparts) hxr
            rw [hSr] at hfx
            have hSe : Sr = Sx := Option.some.inj hfx
            refine List.mem_append_right _ (List.mem_flatten.mpr ⟨Sx, hSx, ?_⟩)
            rw [← hSe]
            exact (hiff m).mpr htg
  exact key fuel [] name hname (by intro v hv; cases hv) List.nodup_nil
    (by intro v hv; cases hv) (by simpa using hfuel)

theorem length_filter_lt {p : α → Bool} {l : List α} {a : α}
    (ha : a ∈ l) (hpa : p a = false) : (l.filter p).length < l.length := by
  induction l with
  | nil => cases ha
  | cons x xs ih =>
    rcases List.mem_cons.mp ha with h | h
    · subst h
      rw [List.filter_cons_of_neg (by simp [hpa])]
      have := List.length_filter_le p xs
      simp only [List.length_cons]
      omega
    · cases hpx : p x with
      | false =>
        rw [List.filter_cons_of_neg (by simp [hpx])]
        have := List.length_filter_le p xs
        simp only [List.length_cons]
        omega
      | true =>
        rw [List.filter_cons_of_pos (by simp [hpx])]
        simp only [List.length_cons]
        exact Nat.succ_lt_succ (ih h)

theorem exists_source {envs : List EnvConf} (hacyc : AcyclicL envs) :
    ∀ (N : Nat) (rem : List (String × List String)), rem.length ≤ N → rem ≠ [] →
      (∀ x ∈ rem, refsByName envs x.1 = some x.2) →
      ∃ e ∈ rem, ∀ r ∈ e.2, ∀ x ∈ rem, x.1 ≠ r := by
  intro N
  induction N with
  | zero =>
    intro rem hlen hne _
    exact absurd (List.length_eq_zero.mp (Nat.le_zero.mp hlen)) hne
  | succ N ih =>
    intro rem hlen hne hassoc
    classical
    obtain ⟨e0, he0⟩ := List.exists_mem_of_ne_nil rem hne
    by_cases hdone : ∀ r ∈ e0.2, ∀ x ∈ rem, x.1 ≠ r
    · exact ⟨e0, he0, hdone⟩
    · push_neg at hdone
      obtain ⟨r0, hr0, x0, hx0, hx0r⟩ := hdone
      have hstep0 : RefStep envs e0.1 x0.1 :=
        ⟨e0.2, hassoc e0 he0, by rw [hx0r]; exact hr0⟩
      have hnoself : ¬ Reach envs e0.1 e0.1 := by
        have hs : (refsByName envs e0.1).isSome := by rw [hassoc e0 he0]; rfl
        obtain ⟨e, he, hen⟩ := refsByName_isSome_exists hs
        intro hcon
        exact hacyc e he (by rw [hen]; exact hcon)
      have he0f : (fun x : String × List String =>
          decide (Reach envs e0.1 x.1)) e0 = false := by
        simp only [decide_eq_false_iff_not]
        exact hnoself
      have hx0mem : x0 ∈ rem.filter (fun x => decide (Reach envs e0.1 x.1)) :=
        List.mem_filter.mpr ⟨hx0, by
          simp only [decide_eq_true_eq]
          exact Relation.TransGen.single hstep0⟩
      have hlt := @length_filter_lt (String × List String)
        (fun x => decide (Reach envs e0.1 x.1)) rem e0 he0 he0f
      have hne2 : rem.filter (fun x => decide (Reach envs e0.1 x.1)) ≠ [] := by
        intro hnil
        rw [hnil] at hx0mem
        cases hx0mem
      have hassoc2 : ∀ x ∈ rem.filter (fun x => decide (Reach envs e0.1 x.1)),
          refsByName envs x.1 = some x.2 :=
        fun x hx => hassoc x (List.mem_of_mem_filter hx)
      obtain ⟨e, he, hprop⟩ := ih (rem.filter (fun x => decide (Reach envs e0.1 x.1)))
        (by omega) hne2 hassoc2
      refine ⟨e, List.mem_of_mem_filter he, ?_⟩
      intro r hr x hx hxr
      have hereach : Reach envs e0.1 e.1 := by
        have := (List.mem_filter.mp he).2
        simpa using this
      have hstep : RefStep envs e.1 x.1 :=
        ⟨e.2, hassoc2 e he, by rw [hxr]; exact hr⟩
      have hx2 : x ∈ rem.filter (fun x => decide (Reach envs e0.1 x.1)) :=
        List.mem_filter.mpr ⟨hx, by
          simp only [decide_eq_true_eq]
          exact Relation.TransGen.tail hereach hstep⟩
      exact hprop r hr x hx2 hxr

theorem eraseP_split {α : Type} (p : α → Bool) :
    ∀ (l : List α) (a : α), a ∈ l → p a = true →
    ∃ b l₁ l₂, (∀ x ∈ l₁, p x = false) ∧ p b = true ∧
      l = l₁ ++ b :: l₂ ∧ l.eraseP p = l₁ ++ l₂ := by
  intro l
  induction l with
  | nil => intro a ha; cases ha
  | cons x xs ih =>
    intro a ha hpa
    by_cases hx : p x = true
    · refine ⟨x, [], xs, ?_, hx, rfl, ?_⟩
      · intro y hy; cases hy
      · simp [List.eraseP_cons, hx]
    · have hxf : p x = false := by
        cases hpx : p x
        · rfl
        · exact absurd hpx hx
      have hax : a ≠ x := fun h => hx (h ▸ hpa)
      have ha2 : a ∈ xs := by
        rcases List.mem_cons.mp ha with h | h
        · exact absurd h hax
        · exact h
      obtain ⟨b, l₁, l₂, h1, h2, h3, h4⟩ := ih a ha2 hpa
      refine ⟨b, x :: l₁, l₂, ?_, h2, ?_, ?_⟩
      · intro y hy
        rcases List.mem_cons.mp hy with h | h
        · subst h; exact hxf
        · exact h1 y h
      · rw [h3]; rfl
      · rw [List.eraseP_cons, hxf]
        show x :: xs.eraseP p = _
        rw [h4]
        rfl

theorem toposort_success {envs : List EnvConf} (hacyc : AcyclicL envs) :
    ∀ (fuel : Nat) (rem : List (String × List String)) (emitted : List String),
      rem.length ≤ fuel →
      (∀ x ∈ rem, refsByName envs x.1 = some x.2) →
      (∀ x ∈ rem, ∀ r ∈ x.2, r ∈ emitted ∨ ∃ y ∈ rem, y.1 = r) →
      ∃ ns, toposortFlatten fuel emitted rem = some ns := by
  intro fuel
  induction fuel with
  | zero =>
    intro rem emitted hlen _ _
    have hr : rem = [] := List.length_eq_zero.mp (Nat.le_zero.mp hlen)
    subst hr
    exact ⟨[], rfl⟩
  | succ f ih =>
    intro rem emitted hlen hassoc hrefs
    cases rem with
    | nil => exact ⟨[], rfl⟩
    | cons z zs =>
      obtain ⟨e, he, hprop⟩ :=
        exists_source hacyc (z :: zs).length (z :: zs) le_rfl (by simp) hassoc
      have hready : (e.2.all (fun r => emitted.contains r)) = true := by
        rw [List.all_eq_true]
        intro r hr
        rcases hrefs e he r hr with h | h
        · simpa using h
        · obtain ⟨y, hy, hyr⟩ := h
          exact absurd hyr (hprop r hr y hy)
      have hfind : ((z :: zs).find?
          (fun x => x.2.all (fun r => emitted.contains r))).isSome :=
        List.find?_isSome.mpr ⟨e, he, hready⟩
      obtain ⟨w, hw⟩ := Option.isSome_iff_exists.mp hfind
      have hwmem := List.mem_of_find?_eq_some hw
      obtain ⟨a, l₁, l₂, hl₁, hpa, hsplit, herase⟩ :=
        eraseP_split (fun x => decide (x.1 = w.1)) (z :: zs) w hwmem (by simp)
      have haw : a.1 = w.1 := of_decide_eq_true hpa
      have hlen2 : ((z :: zs).eraseP (fun x => x.1 = w.1)).length ≤ f := by
        rw [herase]
        have h1 : (z :: zs).length = l₁.length + l₂.length + 1 := by
          rw [hsplit]
          simp [List.length_append]
          omega
        simp only [List.length_append]
        omega
      have hsub : ∀ x ∈ (z :: zs).eraseP (fun x => x.1 = w.1), x ∈ z :: zs := by
        intro x hx
        rw [herase] at hx
        rw [hsplit]
        rcases List.mem_append.mp hx with h1 | h1
        · exact List.mem_append_left _ h1
        · exact List.mem_append_right _ (List.mem_cons_of_mem _ h1)
      have hassoc2 : ∀ x ∈ (z :: zs).eraseP (fun x => x.1 = w.1),
          refsByName envs x.1 = some x.2 :=
        fun x hx => hassoc x (hsub x hx)
      have hrefs2 : ∀ x ∈ (z :: zs).eraseP (fun x => x.1 = w.1), ∀ r ∈ x.2,
          r ∈ emitted ++ [w.1] ∨
          ∃ y ∈ (z :: zs).eraseP (fun x => x.1 = w.1), y.1 = r := by
        intro x hx r hr
        rcases hrefs x (hsub x hx) r hr with h1 | h1
        · exact Or.inl (List.mem_append_left _ h1)
        · obtain ⟨y, hy, hyr⟩ := h1
          rw [hsplit] at hy
          rcases List.mem_append.mp hy with h2 | h2
          · exact Or.inr ⟨y, by rw [herase]; exact List.mem_append_left _ h2, hyr⟩
          · rcases List.mem_cons.mp h2 with h3 | h3
            · subst h3
              refine Or.inl (List.mem_append_right _ ?_)
              rw [← hyr, haw]
              exact List.mem_singleton.mpr rfl
            · exact Or.inr ⟨y, by rw [herase]; exact List.mem_append_right _ h3, hyr⟩
      obtain ⟨ns, hns⟩ := ih ((z :: zs).eraseP (fun x => x.1 = w.1))
        (emitted ++ [w.1]) hlen2 hassoc2 hrefs2
      refine ⟨w.1 :: ns, ?_⟩
      unfold toposortFlatten
      rw [hw]
      dsimp only
      rw [hns]
      rfl

theorem toposort_sound :
    ∀ (fuel : Nat) (rem : List (String × List String)) (emitted ns : List String),
      toposortFlatten fuel emitted rem = some ns →
      (rem.map Prod.fst).Nodup →
      ns.Perm (rem.map Prod.fst) ∧
      (∀ i : Fin ns.length, ∀ x ∈ rem, x.1 = ns.get i →
        ∀ r ∈ x.2, r ∈ emitted ∨
          ∃ j : Fin ns.length, j.val < i.val ∧ ns.get j = r) := by
  intro fuel
  induction fuel with
  | zero =>
    intro rem emitted ns h hnd
    cases rem with
    | nil =>
      have hns : [] = ns := Option.some.inj h
      subst hns
      exact ⟨List.Perm.refl _, fun i => absurd i.isLt (by simp)⟩
    | cons z zs => cases h
  | succ f ih =>
    intro rem emitted ns h hnd
    cases rem with
    | nil =>
      have hns : [] = ns := Option.some.inj h
      subst hns
      exact ⟨List.Perm.refl _, fun i => absurd i.isLt (by simp)⟩
    | cons z zs =>
      unfold toposortFlatten at h
      cases hw : (z :: zs).find?
          (fun x => x.2.all (fun r => emitted.contains r)) with
      | none => rw [hw] at h; cases h
      | some w =>
        rw [hw] at h
        dsimp only at h
        cases hrec : toposortFlatten f (emitted ++ [w.1])
            ((z :: zs).eraseP (fun x => x.1 = w.1)) with
        | none => rw [hrec] at h; cases h
        | some ns2 =>
          rw [hrec] at h
          have hns : w.1 :: ns2 = ns := Option.some.inj h
          subst hns
          have hwmem := List.mem_of_find?_eq_some hw
          have hwready := List.find?_some hw
          obtain ⟨a, l₁, l₂, hl₁, hpa, hsplit, herase⟩ :=
            eraseP_split (fun x => decide (x.1 = w.1)) (z :: zs) w hwmem (by simp)
          have haw : a.1 = w.1 := of_decide_eq_true hpa
          have hnd2 : ((((z :: zs).eraseP
              (fun x => x.1 = w.1))).map Prod.fst).Nodup :=
            hnd.sublist ((List.eraseP_sublist _).map Prod.fst)
          obtain ⟨hperm2, hord2⟩ := ih _ _ _ hrec hnd2
          have hpermMain : (w.1 :: ns2).Perm ((z :: zs).map Prod.fst) := by
            have h1 : (w.1 :: ns2).Perm
                (w.1 :: (((z :: zs).eraseP (fun x => x.1 = w.1)).map Prod.fst)) :=
              hperm2.cons _
            have h2 : (((z :: zs).eraseP (fun x => x.1 = w.1)).map Prod.fst)
                = l₁.map Prod.fst ++ l₂.map Prod.fst := by
              rw [herase, List.map_append]
            have h3 : (l₁.map Prod.fst ++ w.1 :: l₂.map Prod.fst).Perm
                (w.1 :: (l₁.map Prod.fst ++ l₂.map Prod.fst)) :=
              List.perm_middle
            have h4 : (z :: zs).map Prod.fst
                = l₁.map Prod.fst ++ w.1 :: l₂.map Prod.fst := by
              rw [hsplit, List.map_append, List.map_cons, haw]
            rw [h4]
            rw [h2] at h1
            exact h1.trans h3.symm
          have hwnotin : w.1 ∉ ns2 := by
            intro hmem
            have hmem2 : w.1 ∈ (((z :: zs).eraseP
                (fun x => x.1 = w.1))).map Prod.fst := hperm2.subset hmem
            rw [herase, List.map_append] at hmem2
            have hndSplit := hnd
            rw [hsplit, List.map_append, List.map_cons] at hndSplit
            have hnd3 := (List.perm_middle.nodup_iff).mp hndSplit
            have hnotin := (List.nodup_cons.mp hnd3).1
            rw [haw] at hnotin
            exact hnotin hmem2
          refine ⟨hpermMain, ?_⟩
          rintro ⟨iv, hiv⟩ x hx hxi r hr
          cases iv with
          | zero =>
            have hxw : x = w :=
              List.inj_on_of_nodup_map hnd hx hwmem hxi
            subst hxw
            left
            have hall : x.2.all (fun r => emitted.contains r) = true := by
              simpa using hwready
            have := List.all_eq_true.mp hall r hr
            simpa using this
          | succ j =>
            have hj : j < ns2.length := by
              simpa using hiv
            have hxi2 : x.1 = ns2.get ⟨j, hj⟩ := hxi
            have hxne : x ≠ a := by
              intro hxa
              apply hwnotin
              rw [← haw, ← hxa, hxi2]
              exact List.get_mem _ _ _
            have hxmem2 : x ∈ (z :: zs).eraseP (fun y => y.1 = w.1) := by
              rw [herase]
              rw [hsplit] at hx
              rcases List.mem_append.mp hx with h1 | h1
              · exact List.mem_append_left _ h1
              · rcases List.mem_cons.mp h1 with h2 | h2
                · exact absurd h2 hxne
                · exact List.mem_append_right _ h2
            rcases hord2 ⟨j, hj⟩ x hxmem2 hxi2 r hr with h1 | h1
            · rcases List.mem_append.mp h1 with h2 | h2
              · exact Or.inl h2
              · right
                refine ⟨⟨0, by simp⟩, by simp, ?_⟩
                have hrw : r = w.1 := by simpa using h2
                rw [hrw]
                rfl
            · obtain ⟨⟨jv, hjv⟩, hjlt, hjeq⟩ := h1
              right
              refine ⟨⟨jv + 1, by simpa using hjv⟩, by simpa using hjlt, ?_⟩
              exact hjeq

/-- C3: for an acyclic, closed reference graph with distinct
environment names, `order_by_refs` succeeds and returns a list holding
every discovered environment exactly once, in which every environment
is placed strictly after every environment of its direct and transitive
reference set. -/
theorem c3_order_by_refs_topological (envs : List EnvConf)
    (hnd : (envs.map EnvConf.name).Nodup)
    (hclosed : ClosedL envs)
    (hacyc : AcyclicL envs) :
    ∃ l, orderByRefs envs = some l ∧
      l.length = envs.length ∧ (∀ e ∈ envs, e ∈ l) ∧
      ∀ i j : Fin l.length,
        Reach envs ((l.get i).name) ((l.get j).name) → j.val < i.val := by
  have hpairsfst : (envs.map (fun e => (e.name, e.refs))).map Prod.fst
      = envs.map EnvConf.name := by
    rw [List.map_map]
    rfl
  have hndp : ((envs.map (fun e => (e.name, e.refs))).map Prod.fst).Nodup := by
    rw [hpairsfst]
    exact hnd
  have hassoc : ∀ x ∈ envs.map (fun e => (e.name, e.refs)),
      refsByName envs x.1 = some x.2 := by
    intro x hx
    obtain ⟨e, he, hex⟩ := List.mem_map.mp hx
    rw [← hex]
    exact refsByName_of_nodup hnd he
  have hrefs0 : ∀ x ∈ envs.map (fun e => (e.name, e.refs)), ∀ r ∈ x.2,
      r ∈ ([] : List String) ∨
      ∃ y ∈ envs.map (fun e => (e.name, e.refs)), y.1 = r := by
    intro x hx r hr
    obtain ⟨e, he, hex⟩ := List.mem_map.mp hx
    have hrr : r ∈ e.refs := by rw [← hex] at hr; exact hr
    obtain ⟨e2, he2, he2n⟩ := refsByName_isSome_exists (hclosed e he r hrr)
    exact Or.inr ⟨(e2.name, e2.refs), List.mem_map.mpr ⟨e2, he2, rfl⟩, he2n⟩
  obtain ⟨ns, hns⟩ := toposort_success hacyc envs.length
    (envs.map (fun e => (e.name, e.refs))) [] (by rw [List.length_map]) hassoc hrefs0
  obtain ⟨hperm, hord⟩ := toposort_sound envs.length _ [] ns hns hndp
  rw [hpairsfst] at hperm
  have hnsmem : ∀ n ∈ ns, ∃ e ∈ envs, e.name = n := by
    intro n hn
    have := hperm.subset hn
    obtain ⟨e, he, hne⟩ := List.mem_map.mp this
    exact ⟨e, he, hne⟩
  have hlook : ∀ n ∈ ns, ∃ e, findEnvByName envs n = some e ∧ e ∈ envs ∧ e.name = n := by
    intro n hn
    obtain ⟨e, he, hne⟩ := hnsmem n hn
    have hsome : (findEnvByName envs n).isSome := by
      unfold findEnvByName
      exact List.find?_isSome.mpr ⟨e, List.mem_reverse.mpr he, by simp [hne]⟩
    obtain ⟨e2, he2⟩ := Option.isSome_iff_exists.mp hsome
    refine ⟨e2, he2, ?_, ?_⟩
    · exact List.mem_reverse.mp (List.mem_of_find?_eq_some he2)
    · simpa using List.find?_some he2
  obtain ⟨l, hl⟩ := @optMapM_isSome String EnvConf (findEnvByName envs) ns
    (fun n hn => by obtain ⟨e, he, _⟩ := hlook n hn; rw [he]; rfl)
  have hfa := optMapM_forall₂ hl
  have hlen : l.length = ns.length := hfa.length_eq.symm
  have hget : ∀ (i : Nat) (h1 : i < ns.length) (h2 : i < l.length),
      findEnvByName envs (ns.get ⟨i, h1⟩) = some (l.get ⟨i, h2⟩) :=
    (List.forall₂_iff_get.mp hfa).2
  have hgetname : ∀ (i : Nat) (h2 : i < l.length),
      (l.get ⟨i, h2⟩).name = ns.get ⟨i, by rw [← hlen]; exact h2⟩ ∧
      l.get ⟨i, h2⟩ ∈ envs := by
    intro i h2
    have h1 : i < ns.length := by rw [← hlen]; exact h2
    have hfi := hget i h1 h2
    obtain ⟨e, he, hemem, hename⟩ := hlook (ns.get ⟨i, h1⟩) (List.get_mem _ _ _)
    rw [he] at hfi
    have : e = l.get ⟨i, h2⟩ := Option.some.inj hfi
    subst this
    exact ⟨hename, hemem⟩
  have hmainlen : l.length = envs.length := by
    rw [hlen, hperm.length_eq, List.length_map]
  refine ⟨l, ?_, hmainlen, ?_, ?_⟩
  · unfold orderByRefs
    rw [hns]
    dsimp only
    exact hl
  · intro e he
    have hmem : e.name ∈ ns := hperm.symm.subset (List.mem_map.mpr ⟨e, he, rfl⟩)
    obtain ⟨⟨i, hi⟩, hieq⟩ := List.mem_iff_get.mp hmem
    have h2 : i < l.length := by rw [hlen]; exact hi
    obtain ⟨hname2, hmem2⟩ := hgetname i h2
    have : l.get ⟨i, h2⟩ = e := by
      apply List.inj_on_of_nodup_map hnd hmem2 he
      rw [hname2]
      exact hieq
    rw [← this]
    exact List.get_mem _ _ _
  · -- ordering: first the single-step version at the level of ns
    have hnsnd : ns.Nodup := hperm.nodup_iff.mpr hnd
    have hdirect : ∀ i j : Fin ns.length,
        RefStep envs (ns.get i) (ns.get j) → j.val < i.val := by
      intro i j hstep
      obtain ⟨refs, hrefs, hmemr⟩ := hstep
      obtain ⟨e, he, hen, herefs⟩ := refsByName_exists hrefs
      have hx : (e.name, e.refs) ∈ envs.map (fun e => (e.name, e.refs)) :=
        List.mem_map.mpr ⟨e, he, rfl⟩
      have hr2 : ns.get j ∈ (e.name, e.refs).2 := by
        dsimp only
        rw [herefs]
        exact hmemr
      rcases hord i (e.name, e.refs) hx hen (ns.get j) hr2 with h1 | h1
      · exact absurd h1 (by simp)
      · obtain ⟨j2, hj2lt, hj2eq⟩ := h1
        have : j2 = j := (List.Nodup.get_inj_iff hnsnd).mp hj2eq
        rw [← this]
        exact hj2lt
    have hinns : ∀ a c : String, RefStep envs a c →
        ∃ k : Fin ns.length, ns.get k = c := by
      intro a c hstep
      obtain ⟨refs, hrefs, hcr⟩ := hstep
      obtain ⟨e, he, hen, herefs⟩ := refsByName_exists hrefs
      have hcsome : (refsByName envs c).isSome :=
        hclosed e he c (by rw [herefs]; exact hcr)
      obtain ⟨e2, he2, he2n⟩ := refsByName_isSome_exists hcsome
      have hcns : c ∈ ns :=
        hperm.symm.subset (List.mem_map.mpr ⟨e2, he2, he2n⟩)
      obtain ⟨k, hk⟩ := List.mem_iff_get.mp hcns
      exact ⟨k, hk⟩
    have htrans : ∀ (b : String) (j : Fin ns.length), ns.get j = b →
        ∀ (a : String), Reach envs a b →
        ∀ i : Fin ns.length, ns.get i = a → j.val < i.val := by
      intro b j hjb a hreach
      induction hreach using Relation.TransGen.head_induction_on with
      | base hstep =>
        intro i hia
        exact hdirect i j (by rw [hia, hjb]; exact hstep)
      | ih hstep hreach2 hP =>
        intro i hia
        obtain ⟨k, hk⟩ := hinns _ _ hstep
        have h1 : j.val < k.val := hP k hk
        have h2 : k.val < i.val := hdirect i k (by rw [hia, hk]; exact hstep)
        omega
    rintro ⟨i, hi⟩ ⟨j, hj⟩ hreach
    have hi2 : i < ns.length := by rw [← hlen]; exact hi
    have hj2 : j < ns.length := by rw [← hlen]; exact hj
    obtain ⟨hnamei, _⟩ := hgetname i hi
    obtain ⟨hnamej, _⟩ := hgetname j hj
    exact htrans ((l.get ⟨j, hj⟩).name) ⟨j, hj2⟩ hnamej.symm
      ((l.get ⟨i, hi⟩).name) hreach ⟨i, hi2⟩ hnamei.symm

theorem c3_order_by_refs_topological_witness :
    ((chainEnvs.map EnvConf.name).Nodup ∧ ClosedL chainEnvs ∧
      cycleFreeCheck chainEnvs = true) ∧
    (∃ l, orderByRefs chainEnvs = some l ∧
      l.length = chainEnvs.length ∧ (∀ e ∈ chainEnvs, e ∈ l) ∧
      ∀ i j : Fin l.length,
        Reach chainEnvs ((l.get i).name) ((l.get j).name) → j.val < i.val) :=
  ⟨⟨by decide, by decide, by decide⟩,
   c3_order_by_refs_topological chainEnvs (by decide) (by decide)
     (acyclic_of_cycleFreeCheck (by decide))⟩

theorem c4_recursive_refs_exact_witness :
    ((refsByName chainEnvs "local").isSome ∧ ClosedL chainEnvs ∧
      cycleFreeCheck chainEnvs = true) ∧
    (∃ S, recursiveRefsF chainEnvs 4 "local" = some S ∧
      ∀ m, m ∈ S ↔ Reach chainEnvs "local" m) :=
  ⟨⟨by decide, by decide, by decide⟩,
   c4_recursive_refs_exact chainEnvs "local" 4 (by decide) (by decide)
     (acyclic_of_cycleFreeCheck (by decide)) (by decide)⟩

/-! ### Header round-trip lemmas -/

theorem splitLinesAux_flatten : ∀ (l acc : Str),
    (splitLinesAux acc l).flatten = acc.reverse ++ l := by
  intro l
  induction l with
  | nil =>
    intro acc
    unfold splitLinesAux
    by_cases h : acc = []
    · simp [h]
    · simp [h]
  | cons c rest ih =>
    intro acc
    unfold splitLinesAux
    by_cases h : c = '\n'
    · subst h
      rw [if_pos rfl, List.flatten_cons, ih []]
      simp
    · rw [if_neg h, ih (c :: acc)]
      simp

theorem splitLinesKN_flatten (l : Str) : (splitLinesKN l).flatten = l := by
  unfold splitLinesKN
  rw [splitLinesAux_flatten]
  rfl

theorem validLines_cons {x : Str} {t : List Str}
    (hx : FullLine x) (ht : ValidLines t) : ValidLines (x :: t) := by
  cases t with
  | nil => exact Or.inl hx
  | cons y rest => exact ⟨hx, ht⟩

theorem validLines_of_cons {x : Str} {t : List Str}
    (h : ValidLines (x :: t)) : ValidLines t := by
  cases t with
  | nil => trivial
  | cons y rest => exact h.2

theorem validLines_mem : ∀ {ll : List Str}, ValidLines ll →
    ∀ {x : Str}, x ∈ ll → FullLine x ∨ BareLine x := by
  intro ll
  induction ll with
  | nil => intro _ x hx; cases hx
  | cons y t ih =>
    intro hv x hx
    rcases List.mem_cons.mp hx with h | h
    · subst h
      cases t with
      | nil => exact hv
      | cons z rest => exact Or.inl hv.1
    · exact ih (validLines_of_cons hv) h

theorem splitLinesAux_valid : ∀ (l acc : Str), ('\n') ∉ acc →
    ValidLines (splitLinesAux acc l) := by
  intro l
  induction l with
  | nil =>
    intro acc hacc
    unfold splitLinesAux
    by_cases h : acc = []
    · rw [if_pos h]; trivial
    · rw [if_neg h]
      refine Or.inr ⟨by simpa using hacc, by simpa using h⟩
  | cons c rest ih =>
    intro acc hacc
    unfold splitLinesAux
    by_cases h : c = '\n'
    · subst h
      rw [if_pos rfl]
      exact validLines_cons ⟨acc.reverse, by simpa using hacc, rfl⟩ (ih [] (by simp))
    · rw [if_neg h]
      refine ih (c :: acc) ?_
      intro hm
      rcases List.mem_cons.mp hm with h1 | h1
      · exact h h1.symm
      · exact hacc h1

theorem splitLinesAux_full : ∀ (core acc t : Str), ('\n') ∉ core →
    splitLinesAux acc (core ++ '\n' :: t)
      = ((acc.reverse ++ core) ++ ['\n']) :: splitLinesAux [] t := by
  intro core
  induction core with
  | nil =>
    intro acc t _
    show splitLinesAux acc ('\n' :: t) = _
    conv_lhs => unfold splitLinesAux
    rw [if_pos rfl]
    simp
  | cons c core2 ih =>
    intro acc t hn
    have hc : c ≠ '\n' := fun h => hn (h ▸ List.mem_cons_self ..)
    show splitLinesAux acc (c :: (core2 ++ '\n' :: t)) = _
    conv_lhs => unfold splitLinesAux
    rw [if_neg hc, ih (c :: acc) t (fun hm => hn (List.mem_cons_of_mem _ hm))]
    simp

theorem splitLinesAux_bare : ∀ (x acc : Str), ('\n') ∉ x →
    acc.reverse ++ x ≠ [] → splitLinesAux acc x = [acc.reverse ++ x] := by
  intro x
  induction x with
  | nil =>
    intro acc _ hne
    have hacc : acc ≠ [] := by
      intro h
      subst h
      simp at hne
    unfold splitLinesAux
    rw [if_neg hacc]
    simp
  | cons c x2 ih =>
    intro acc hn hne
    have hc : c ≠ '\n' := fun h => hn (h ▸ List.mem_cons_self ..)
    unfold splitLinesAux
    rw [if_neg hc]
    rw [ih (c :: acc) (fun hm => hn (List.mem_cons_of_mem _ hm))
      (by intro hcon; have := congrArg List.length hcon; simp at this)]
    simp

theorem splitLinesKN_flatten_inv : ∀ (ll : List Str), ValidLines ll →
    splitLinesKN ll.flatten = ll := by
  intro ll
  induction ll with
  | nil => intro _; rfl
  | cons x t ih =>
    intro hv
    have hsh : FullLine x ∨ (BareLine x ∧ t = []) := by
      cases t with
      | nil =>
        rcases hv with h | h
        · exact Or.inl h
        · exact Or.inr ⟨h, rfl⟩
      | cons y rest => exact Or.inl hv.1
    rcases hsh with ⟨core, hcn, rfl⟩ | ⟨⟨hn, hne⟩, rfl⟩
    · rw [List.flatten_cons, List.append_assoc, List.singleton_append]
      unfold splitLinesKN
      rw [splitLinesAux_full core [] t.flatten hcn]
      simp only [List.reverse_nil, List.nil_append]
      rw [show splitLinesAux [] t.flatten = splitLinesKN t.flatten from rfl,
        ih (validLines_of_cons hv)]
    · rw [List.flatten_cons, List.flatten_nil, List.append_nil]
      unfold splitLinesKN
      exact splitLinesAux_bare x [] hn (by simpa using hne)

theorem validLines_dropWhile (p : Str → Bool) :
    ∀ {ll : List Str}, ValidLines ll → ValidLines (ll.dropWhile p) := by
  intro ll
  induction ll with
  | nil => intro h; exact h
  | cons x t ih =>
    intro hv
    rw [List.dropWhile_cons]
    by_cases hp : p x = true
    · rw [if_pos hp]
      exact ih (validLines_of_cons hv)
    · rw [if_neg (by simpa using hp)]
      exact hv

theorem headerLines_full {h : Str} (hh : headerLinesOK h = true) :
    (∀ x ∈ splitLinesKN h, FullLine x) ∧
    (∀ x ∈ splitLinesKN h, isHeaderLine x = true) := by
  have hall := List.all_eq_true.mp hh
  have hv := splitLinesAux_valid h [] (by simp)
  constructor
  · intro x hx
    have hx2 := hall x hx
    rw [Bool.and_eq_true] at hx2
    have hlast : x.getLast? = some '\n' := by simpa using hx2.2
    rcases validLines_mem hv hx with hf | hb
    · exact hf
    · exact absurd (List.mem_of_getLast?_eq_some hlast) hb.1
  · intro x hx
    have hx2 := hall x hx
    rw [Bool.and_eq_true] at hx2
    exact hx2.1

theorem splitLinesKN_append_full : ∀ (ll : List Str) (t : Str),
    (∀ x ∈ ll, FullLine x) →
    splitLinesKN (ll.flatten ++ t) = ll ++ splitLinesKN t := by
  intro ll
  induction ll with
  | nil => intro t _; simp
  | cons x lt ih =>
    intro t hfull
    obtain ⟨core, hcn, rfl⟩ := hfull x (List.mem_cons_self ..)
    rw [List.flatten_cons, List.append_assoc, List.append_assoc,
      List.singleton_append]
    unfold splitLinesKN
    rw [splitLinesAux_full core [] _ hcn]
    simp only [List.reverse_nil, List.nil_append]
    rw [show splitLinesAux [] (lt.flatten ++ t) = splitLinesKN (lt.flatten ++ t)
      from rfl, ih t (fun y hy => hfull y (List.mem_cons_of_mem _ hy))]
    rfl

/-- C7 counterexample: a replacement header that is not a comment block
is not recovered by `split_header`; with header text `oops` the reread
header portion is empty. -/
theorem c7_counterexample :
    (splitHeaderFile (replaceHeader ("# old\nbody\n".toList)
      ("oops\n".toList))).1 ≠ ("oops\n".toList) := by
  decide

/-- C7 (amended): for every file content and every supplied header text
consisting of newline-terminated lines that each start with the comment
marker, `replace_header` followed by `split_header` recovers exactly
the supplied header text as the header portion and leaves the body
byte-identical to the body of the original file. -/
theorem c7_replace_header_roundtrip (content header : Str)
    (hh : headerLinesOK header = true) :
    splitHeaderFile (replaceHeader content header)
      = (header, (splitHeaderFile content).2) := by
  obtain ⟨hfull, hhead⟩ := headerLines_full hh
  have hbody_valid : ValidLines ((splitLinesKN content).dropWhile isHeaderLine) :=
    validLines_dropWhile _ (splitLinesAux_valid content [] (by simp))
  have key : splitHeaderFile
      (header ++ ((splitLinesKN content).dropWhile isHeaderLine).flatten)
      = (header, ((splitLinesKN content).dropWhile isHeaderLine).flatten) := by
    unfold splitHeaderFile
    have hsplit : splitLinesKN
        (header ++ ((splitLinesKN content).dropWhile isHeaderLine).flatten)
        = splitLinesKN header ++ (splitLinesKN content).dropWhile isHeaderLine := by
      conv_lhs => rw [← splitLinesKN_flatten header]
      rw [splitLinesKN_append_full _ _ hfull,
        splitLinesKN_flatten_inv _ hbody_valid]
    rw [hsplit]
    rw [List.takeWhile_append_of_pos hhead, List.dropWhile_append_of_pos hhead]
    have hdw : ((splitLinesKN content).dropWhile isHeaderLine).takeWhile
        isHeaderLine = [] := by
      cases hd : (splitLinesKN content).dropWhile isHeaderLine with
      | nil => rfl
      | cons y ys =>
        have hnot := List.head?_dropWhile_not isHeaderLine (splitLinesKN content)
        rw [hd] at hnot
        simp only [List.head?_cons] at hnot
        rw [List.takeWhile_cons, hnot]
        simp
    have hdd : ((splitLinesKN content).dropWhile isHeaderLine).dropWhile
        isHeaderLine = (splitLinesKN content).dropWhile isHeaderLine := by
      cases hd : (splitLinesKN content).dropWhile isHeaderLine with
      | nil => rfl
      | cons y ys =>
        have hnot := List.head?_dropWhile_not isHeaderLine (splitLinesKN content)
        rw [hd] at hnot
        simp only [List.head?_cons] at hnot
        rw [List.dropWhile_cons, hnot]
        simp
    rw [hdw, hdd, List.append_nil, splitLinesKN_flatten header]
  exact key

theorem c7_replace_header_roundtrip_witness :
    headerLinesOK ("# SHA1:aa\n# hdr\n".toList) = true ∧
    splitHeaderFile (replaceHeader ("# old\nreq==1.0\nmore\n".toList)
        ("# SHA1:aa\n# hdr\n".toList))
      = (("# SHA1:aa\n# hdr\n".toList),
         (splitHeaderFile ("# old\nreq==1.0\nmore\n".toList)).2) :=
  ⟨by decide,
   c7_replace_header_roundtrip ("# old\nreq==1.0\nmore\n".toList)
     ("# SHA1:aa\n# hdr\n".toList) (by decide)⟩

/-! ### Round-trip lemmas for the dependency line model -/

theorem hasDoubleEq_cons_cons (a b : Char) (rest : Str) :
    hasDoubleEq (a :: b :: rest)
      = ((a == '=' && b == '=') || hasDoubleEq (b :: rest)) := rfl

theorem splits2_cons_cons (a b : Char) (rest : Str) :
    splits2 (a :: b :: rest)
      = (if a = '=' ∧ b = '=' then [(([] : Str), rest)] else [])
        ++ (splits2 (b :: rest)).map (fun pr => (a :: pr.1, pr.2)) := by
  by_cases h : a = '=' ∧ b = '='
  · simp [splits2, h]
  · simp [splits2, h]

theorem hasDoubleEq_false_append {a b : Str}
    (ha : hasDoubleEq a = false) (hb : hasDoubleEq b = false)
    (hcross : a.getLast? ≠ some '=' ∨ b.head? ≠ some '=') :
    hasDoubleEq (a ++ b) = false := by
  induction a with
  | nil => exact hb
  | cons x a2 ih =>
    cases a2 with
    | nil =>
      cases b with
      | nil => rfl
      | cons y b2 =>
        rw [List.singleton_append, hasDoubleEq_cons_cons]
        have hxy : (x == '=' && y == '=') = false := by
          rcases hcross with h | h
          · have : x ≠ '=' := by simpa using h
            simp [this]
          · have : y ≠ '=' := by simpa using h
            simp [this]
        rw [hxy, hb]
        rfl
    | cons z a3 =>
      rw [List.cons_append, List.cons_append, hasDoubleEq_cons_cons]
      rw [hasDoubleEq_cons_cons] at ha
      have h1 : (x == '=' && z == '=') = false ∧ hasDoubleEq (z :: a3) = false := by
        constructor
        · cases hxz : (x == '=' && z == '=')
          · rfl
          · rw [hxz] at ha; simp at ha
        · cases hde : hasDoubleEq (z :: a3)
          · rfl
          · rw [hde] at ha; simp at ha
      have h2 : hasDoubleEq ((z :: a3) ++ b) = false := by
        refine ih h1.2 ?_
        rcases hcross with h | h
        · left
          rw [List.getLast?_cons_cons] at h
          exact h
        · exact Or.inr h
      rw [List.cons_append] at h2
      rw [h2, h1.1]
      rfl

theorem hasDoubleEq_false_left {a b : Str}
    (h : hasDoubleEq (a ++ b) = false) : hasDoubleEq a = false := by
  induction a with
  | nil => rfl
  | cons x a2 ih =>
    cases a2 with
    | nil => rfl
    | cons z a3 =>
      rw [List.cons_append, List.cons_append, hasDoubleEq_cons_cons] at h
      rw [hasDoubleEq_cons_cons]
      have h1 : (x == '=' && z == '=') = false := by
        cases hxz : (x == '=' && z == '=')
        · rfl
        · rw [hxz] at h; simp at h
      have h2 : hasDoubleEq ((z :: a3) ++ b) = false := by
        cases hde : hasDoubleEq ((z :: a3) ++ b)
        · rfl
        · rw [List.cons_append] at hde
          rw [hde] at h
          simp at h
      rw [List.cons_append] at h2
      rw [h1, ih h2]
      rfl

theorem hasDoubleEq_replicate_space :
    ∀ k : Nat, hasDoubleEq (List.replicate k ' ') = false := by
  intro k
  induction k with
  | zero => rfl
  | succ j ih =>
    cases j with
    | zero => rfl
    | succ i =>
      rw [List.replicate_succ, List.replicate_succ, hasDoubleEq_cons_cons,
        ← List.replicate_succ, ih]
      rfl

theorem splits2_clean : ∀ l : Str, hasDoubleEq l = false → splits2 l = [] := by
  intro l
  induction l with
  | nil => intro _; rfl
  | cons a t ih =>
    intro h
    cases t with
    | nil => rfl
    | cons b rest =>
      rw [hasDoubleEq_cons_cons] at h
      have h1 : ¬(a = '=' ∧ b = '=') := by
        intro ⟨ha, hb⟩
        subst ha
        subst hb
        simp at h
      have h2 : hasDoubleEq (b :: rest) = false := by
        cases hde : hasDoubleEq (b :: rest)
        · rfl
        · rw [hde] at h; simp at h
      rw [splits2_cons_cons, if_neg h1, ih h2]
      rfl

theorem splits2_boundary : ∀ (p rest : Str), hasDoubleEq rest = false →
    rest.head? ≠ some '=' →
    ∃ init, splits2 (p ++ '=' :: '=' :: rest) = init ++ [(p, rest)] := by
  intro p
  induction p with
  | nil =>
    intro rest hde hhd
    refine ⟨[], ?_⟩
    show splits2 ('=' :: '=' :: rest) = [(([] : Str), rest)]
    rw [splits2_cons_cons, if_pos ⟨rfl, rfl⟩]
    have hz : splits2 ('=' :: rest) = [] := by
      cases rest with
      | nil => rfl
      | cons c r2 =>
        have hc : ¬('=' = '=' ∧ c = '=') := by
          intro ⟨_, hcc⟩
          exact hhd (by rw [hcc]; rfl)
        rw [splits2_cons_cons, if_neg hc, splits2_clean (c :: r2) hde]
        rfl
    rw [hz]
    rfl
  | cons x p2 ih =>
    intro rest hde hhd
    obtain ⟨init, hinit⟩ := ih rest hde hhd
    cases hsh : p2 ++ '=' :: '=' :: rest with
    | nil => exact absurd hsh (by simp)
    | cons y ys =>
      rw [List.cons_append, hsh, splits2_cons_cons, ← hsh, hinit,
        List.map_append]
      by_cases hxy : x = '=' ∧ y = '='
      · rw [if_pos hxy]
        exact ⟨(([] : Str), ys) :: init.map (fun pr => (x :: pr.1, pr.2)),
          by simp⟩
      · rw [if_neg hxy]
        exact ⟨init.map (fun pr => (x :: pr.1, pr.2)), by simp⟩

theorem parseDepCore_boundary {p rest : Str} (hp : p ≠ [])
    (hde : hasDoubleEq rest = false) (hhd : rest.head? ≠ some '=')
    {vr cr : Str} (hv : vSplit rest = some (vr, cr)) :
    parseDepCore (p ++ '=' :: '=' :: rest) = some (p, vr, cr) := by
  obtain ⟨init, hinit⟩ := splits2_boundary p rest hde hhd
  unfold parseDepCore
  rw [hinit, List.reverse_append]
  show firstSome _ ((p, rest) :: init.reverse) = _
  unfold firstSome
  dsimp only
  rw [if_neg hp, hv]
  rfl

theorem takeWhile_nonspace_all {v : Str} (hvs : ∀ c ∈ v, c ≠ ' ') :
    v.takeWhile (fun c => c ≠ ' ') = v :=
  List.takeWhile_eq_self_iff.mpr (by intro x hx; simpa using hvs x hx)

theorem dropWhile_nonspace_all {v : Str} (hvs : ∀ c ∈ v, c ≠ ' ') :
    v.dropWhile (fun c => c ≠ ' ') = [] :=
  List.dropWhile_eq_nil_iff.mpr (by intro x hx; simpa using hvs x hx)

theorem vSplit_bare (v : Str) (hne : v ≠ []) (hvs : ∀ c ∈ v, c ≠ ' ') :
    vSplit v = some (v, []) := by
  unfold vSplit
  rw [takeWhile_nonspace_all hvs, dropWhile_nonspace_all hvs, if_neg hne]
  rfl

theorem vSplit_comment (v pad c : Str) (hvne : v ≠ [])
    (hvs : ∀ x ∈ v, x ≠ ' ') (hpadne : pad ≠ [])
    (hpad : ∀ x ∈ pad, x = ' ') (hc : c.head? = some '#') :
    vSplit (v ++ (pad ++ c)) = some (v, c) := by
  obtain ⟨c2, rfl⟩ : ∃ c2, c = '#' :: c2 := by
    cases c with
    | nil => cases hc
    | cons a t =>
      rw [List.head?_cons] at hc
      exact ⟨t, by rw [Option.some.inj hc]⟩
  obtain ⟨pad2, rfl⟩ : ∃ pad2, pad = ' ' :: pad2 := by
    cases pad with
    | nil => exact absurd rfl hpadne
    | cons a t =>
      exact ⟨t, by rw [hpad a (List.mem_cons_self ..)]⟩
  have hpad2 : ∀ x ∈ pad2, x = ' ' := fun x hx => hpad x (List.mem_cons_of_mem _ hx)
  have ht : (v ++ (' ' :: pad2 ++ '#' :: c2)).takeWhile (fun c => c ≠ ' ') = v := by
    rw [List.takeWhile_append_of_pos (by intro a ha; simpa using hvs a ha)]
    rw [List.cons_append, List.takeWhile_cons]
    simp
  have hd : (v ++ (' ' :: pad2 ++ '#' :: c2)).dropWhile (fun c => c ≠ ' ')
      = ' ' :: pad2 ++ '#' :: c2 := by
    rw [List.dropWhile_append_of_pos (by intro a ha; simpa using hvs a ha)]
    rw [List.cons_append, List.dropWhile_cons]
    simp
  have hd2 : (' ' :: pad2 ++ '#' :: c2).dropWhile (fun c => c = ' ')
      = '#' :: c2 := by
    rw [List.dropWhile_append_of_pos
      (by intro a ha
          rcases List.mem_cons.mp ha with h | h
          · simp [h]
          · simp [hpad2 a h])]
    rw [List.dropWhile_cons]
    simp
  unfold vSplit
  rw [ht, hd, hd2, if_neg hvne]
  rfl

theorem pyRStrip_append_spaces {u w : Str} (hw : ∀ x ∈ w, pyIsSpace x = true) :
    pyRStrip (u ++ w) = pyRStrip u := by
  unfold pyRStrip
  rw [List.reverse_append,
    List.dropWhile_append_of_pos (by
      intro a ha
      exact hw a (List.mem_reverse.mp ha))]

theorem pyRStrip_eq_self {u : Str} {ch : Char} (hlast : u.getLast? = some ch)
    (hch : pyIsSpace ch = false) : pyRStrip u = u := by
  unfold pyRStrip
  have hhd : u.reverse.head? = some ch := by rw [List.head?_reverse]; exact hlast
  obtain ⟨t, ht⟩ : ∃ t, u.reverse = ch :: t := by
    cases hrev : u.reverse with
    | nil => rw [hrev] at hhd; cases hhd
    | cons a t =>
      rw [hrev, List.head?_cons] at hhd
      exact ⟨t, by rw [Option.some.inj hhd]⟩
  rw [ht, List.dropWhile_cons, hch]
  show (ch :: t).reverse = u
  rw [← ht, List.reverse_reverse]

theorem pyRStrip_append_keep {u c : Str} (hne : pyRStrip c ≠ []) :
    pyRStrip (u ++ c) = u ++ pyRStrip c := by
  unfold pyRStrip at hne ⊢
  rw [List.reverse_append, List.dropWhile_append]
  have h2 : ((c.reverse.dropWhile pyIsSpace).isEmpty) = false := by
    cases hcd : c.reverse.dropWhile pyIsSpace with
    | nil => exact absurd (by rw [hcd]; rfl) hne
    | cons a t => rfl
  rw [h2]
  simp

theorem pyRStrip_ne_nil {c : Str} {x : Char} (hx : x ∈ c)
    (hxs : pyIsSpace x = false) : pyRStrip c ≠ [] := by
  unfold pyRStrip
  intro hcon
  have h1 : c.reverse.dropWhile pyIsSpace = [] := by
    have := congrArg List.reverse hcon
    simpa using this
  have h2 := List.dropWhile_eq_nil_iff.mp h1 x (List.mem_reverse.mpr hx)
  rw [hxs] at h2
  cases h2

theorem pyRStrip_prefix (c : Str) : pyRStrip c <+: c := by
  obtain ⟨s, hs⟩ := (List.dropWhile_suffix pyIsSpace :
    List.dropWhile pyIsSpace c.reverse <:+ c.reverse)
  exact ⟨s.reverse, by
    unfold pyRStrip
    rw [← List.reverse_append, hs, List.reverse_reverse]⟩

theorem pyRStrip_head {c : Str} (hne : pyRStrip c ≠ []) :
    (pyRStrip c).head? = c.head? := by
  obtain ⟨t, ht⟩ := pyRStrip_prefix c
  cases hr : pyRStrip c with
  | nil => exact absurd hr hne
  | cons a t2 =>
    rw [← ht, hr]
    rfl

theorem pyLStrip_eq_self_of_strip {v : Str} (hs : pyStrip v = v) :
    pyLStrip v = v := by
  have h1 : (pyStrip v).length ≤ (pyLStrip v).length := by
    unfold pyStrip pyRStrip
    rw [List.length_reverse]
    calc (List.dropWhile pyIsSpace (pyLStrip v).reverse).length
        ≤ (pyLStrip v).reverse.length := (List.dropWhile_suffix _).length_le
      _ = (pyLStrip v).length := List.length_reverse _
  have h2 : (pyLStrip v).length ≤ v.length := (List.dropWhile_suffix _).length_le
  have h3 : (pyLStrip v).length = v.length := by
    rw [hs] at h1
    omega
  exact (List.dropWhile_suffix _).eq_of_length h3

theorem pyRStrip_eq_self_of_strip {v : Str} (hs : pyStrip v = v) :
    pyRStrip v = v := by
  have h1 := pyLStrip_eq_self_of_strip hs
  unfold pyStrip at hs
  rw [h1] at hs
  exact hs

theorem strip_last_not_space {v : Str} (hs : pyStrip v = v) (hne : v ≠ []) :
    ∃ ch, v.getLast? = some ch ∧ pyIsSpace ch = false := by
  have hr := pyRStrip_eq_self_of_strip hs
  unfold pyRStrip at hr
  have hrev : v.reverse ≠ [] := by simpa using hne
  obtain ⟨a, t, hat⟩ : ∃ a t, v.reverse = a :: t := by
    cases hv : v.reverse with
    | nil => exact absurd hv hrev
    | cons a t => exact ⟨a, t, rfl⟩
  refine ⟨a, ?_, ?_⟩
  · rw [← List.head?_reverse, hat, List.head?_cons]
  · by_contra hcon
    have ha : pyIsSpace a = true := by
      cases hsa : pyIsSpace a
      · exact absurd hsa hcon
      · rfl
    rw [hat, List.dropWhile_cons, ha] at hr
    simp only [if_pos] at hr
    have hlv := congrArg List.length hr
    rw [List.length_reverse] at hlv
    have hvl : v.length = t.length + 1 := by
      have h2 := congrArg List.length hat
      rw [List.length_reverse] at h2
      simpa using h2
    have hlen := (List.dropWhile_suffix pyIsSpace :
      List.dropWhile pyIsSpace t <:+ t).length_le
    omega

theorem pad_merge (k : Nat) :
    ([' ', ' '] : Str) ++ List.replicate k ' ' = List.replicate (k + 2) ' ' := by
  show ' ' :: ' ' :: List.replicate k ' ' = _
  rw [show k + 2 = k + 1 + 1 from rfl, List.replicate_succ, List.replicate_succ]

theorem assemble_eq (P V C : Str) (k : Nat) :
    ((P ++ ['=', '='] ++ V ++ [' ', ' ']) ++ List.replicate k ' ') ++ C
      = ((P ++ '=' :: '=' :: V) ++ List.replicate (k + 2) ' ') ++ C := by
  rw [← pad_merge]
  simp [List.append_assoc]

/-- C6 counterexample: with `mylib` configured as a compatible pattern,
the dependency `mylib 1.0.0` serializes with `~=`, which the dependency
pattern (requiring `==`) does not match, so parse after serialize is
not the identity on (package, version). -/
theorem c6_counterexample :
    parseDependency ("mylib==1.0.0".toList)
      = some ⟨("mylib".toList), ("1.0.0".toList), []⟩ ∧
    parseDependency (serializeDep [("mylib".toList)]
      ⟨("mylib".toList), ("1.0.0".toList), []⟩) = none := by
  refine ⟨by decide, by decide⟩

/-- C6 (amended): parse after serialize is the identity on
(package, version) for every valid dependency that serializes with the
`==` operator and whose fields are of the shape the parser itself
produces: the package is non-empty, not matched by the compatible
patterns and carries no editable marker; the version is a non-empty
whitespace-stripped token without spaces, without `==`, and not
starting with `=`; and the comment is empty or starts with `#` and has
no `==`. -/
theorem c6_parse_serialize_id (patterns : List Str) (d : Dep)
    (hcomp : isCompatible patterns d.package = false)
    (hed : ("-e ".toList).isPrefixOf d.package = false)
    (hp : d.package ≠ [])
    (hv0 : d.version ≠ [])
    (hvs : ∀ c ∈ d.version, c ≠ ' ')
    (hvstrip : pyStrip d.version = d.version)
    (hvde : hasDoubleEq d.version = false)
    (hvhead : d.version.head? ≠ some '=')
    (hcm : d.comment = [] ∨ d.comment.head? = some '#')
    (hcde : hasDoubleEq d.comment = false) :
    ∃ d2, parseDependency (serializeDep patterns d) = some d2 ∧
      d2.package = d.package ∧ d2.version = d.version := by
  obtain ⟨vch, hvlast, hvchs⟩ := strip_last_not_space hvstrip hv0
  obtain ⟨x, V2, hV⟩ : ∃ x V2, d.version = x :: V2 := by
    cases hv : d.version with
    | nil => exact absurd hv hv0
    | cons x V2 => exact ⟨x, V2, rfl⟩
  have hwe : withoutEditable d.package = d.package := by
    unfold withoutEditable
    rw [hed]
    rfl
  have hser : serializeDep patterns d
      = pyRStrip (((d.package ++ '=' :: '=' :: d.version)
          ++ List.replicate ((commentJustification
              - (d.package ++ ['=', '='] ++ d.version ++ [' ', ' ']).length) + 2) ' ')
          ++ d.comment) := by
    unfold serializeDep ljust
    rw [hcomp]
    rw [if_neg (by simp)]
    rw [hwe]
    rw [assemble_eq]
  have hA : (d.package ++ '=' :: '=' :: d.version).getLast? = some vch := by
    rw [List.getLast?_append, hV, List.getLast?_cons_cons,
      List.getLast?_cons_cons, ← hV, hvlast]
    rfl
  have hresthead : ∀ Y : Str, (d.version ++ Y).head? ≠ some '=' := by
    intro Y
    rw [hV, List.cons_append, List.head?_cons]
    rw [hV, List.head?_cons] at hvhead
    exact hvhead
  rcases hcm with hcm | hcm
  · -- no comment: the serialized line is exactly package == version
    have hs2 : serializeDep patterns d
        = d.package ++ '=' :: '=' :: d.version := by
      rw [hser, hcm, List.append_nil,
        pyRStrip_append_spaces (by
          intro y hy
          rw [List.eq_of_mem_replicate hy]
          rfl),
        pyRStrip_eq_self hA hvchs]
    have hcore := parseDepCore_boundary hp hvde
      (by rw [hV, List.head?_cons]; rw [hV, List.head?_cons] at hvhead; exact hvhead)
      (vSplit_bare d.version hv0 hvs)
    refine ⟨⟨d.package, pyStrip d.version, pyStrip []⟩, ?_, rfl, ?_⟩
    · unfold parseDependency
      rw [hs2, hcore]
      rfl
    · exact hvstrip
  · -- trailing comment: serialized line is package == version, padding, comment
    have hcne : pyRStrip d.comment ≠ [] := by
      obtain ⟨c2, hc2⟩ : ∃ c2, d.comment = '#' :: c2 := by
        cases hcc : d.comment with
        | nil => rw [hcc] at hcm; cases hcm
        | cons a t =>
          rw [hcc, List.head?_cons] at hcm
          exact ⟨t, by rw [Option.some.inj hcm]⟩
      exact @pyRStrip_ne_nil d.comment '#'
        (by rw [hc2]; exact List.mem_cons_self ..) (by rfl)
    have hch : (pyRStrip d.comment).head? = some '#' := by
      rw [pyRStrip_head hcne]
      exact hcm
    have hcde2 : hasDoubleEq (pyRStrip d.comment) = false := by
      obtain ⟨w, hw⟩ := pyRStrip_prefix d.comment
      exact @hasDoubleEq_false_left (pyRStrip d.comment) w (by rw [hw]; exact hcde)
    have hs2 : serializeDep patterns d
        = d.package ++ '=' :: '=' :: (d.version
            ++ (List.replicate ((commentJustification
                - (d.package ++ ['=', '='] ++ d.version ++ [' ', ' ']).length) + 2) ' '
              ++ pyRStrip d.comment)) := by
      rw [hser, pyRStrip_append_keep hcne, List.append_assoc,
        List.append_assoc, List.cons_append, List.cons_append]
    have hpadne : (List.replicate ((commentJustification
        - (d.package ++ ['=', '='] ++ d.version ++ [' ', ' ']).length) + 2) ' ')
        ≠ ([] : Str) := by
      rw [List.replicate_succ]
      simp
    have hvsp := vSplit_comment d.version
      (List.replicate ((commentJustification
        - (d.package ++ ['=', '='] ++ d.version ++ [' ', ' ']).length) + 2) ' ')
      (pyRStrip d.comment) hv0 hvs hpadne
      (fun y hy => List.eq_of_mem_replicate hy) hch
    have hrestde : hasDoubleEq (d.version
        ++ (List.replicate ((commentJustification
            - (d.package ++ ['=', '='] ++ d.version ++ [' ', ' ']).length) + 2) ' '
          ++ pyRStrip d.comment)) = false := by
      refine hasDoubleEq_false_append hvde ?_ ?_
      · refine hasDoubleEq_false_append (hasDoubleEq_replicate_space _) hcde2 ?_
        right
        rw [hch]
        simp
      · right
        rw [List.replicate_succ, List.cons_append, List.head?_cons]
        simp
    have hcore := parseDepCore_boundary hp hrestde (hresthead _) hvsp
    refine ⟨⟨d.package, pyStrip d.version, pyStrip (pyRStrip d.comment)⟩, ?_, rfl, ?_⟩
    · unfold parseDependency
      rw [hs2, hcore]
      rfl
    · exact hvstrip

theorem c6_parse_serialize_id_witness :
    (isCompatible [] ("mypkg".toList) = false ∧
     pyStrip ("1.2.3".toList) = ("1.2.3".toList)) ∧
    ∃ d2, parseDependency (serializeDep []
        ⟨("mypkg".toList), ("1.2.3".toList), ("# via app".toList)⟩) = some d2 ∧
      d2.package = ("mypkg".toList) ∧ d2.version = ("1.2.3".toList) :=
  ⟨⟨by decide, by decide⟩,
   c6_parse_serialize_id []
     ⟨("mypkg".toList), ("1.2.3".toList), ("# via app".toList)⟩
     (by decide) (by decide) (by decide) (by decide) (by decide) (by decide)
     (by decide) (by decide) (Or.inr (by decide)) (by decide)⟩

end Pcm
